import Mathlib

/-!
Verification of the cross-word hint relation engine of
src/wordle/main_wordle_openings_frequentist.py.

The Python module works on a numpy array of N uppercase words of length L
(byte codes 65..90), builds an (N, N, 2*L) uint8 hint matrix in five
implementation tiers, and evaluates "openings" (lists of word indices) in
four tiers, producing an expected-entropy / expected-remaining pair.

Embedding conventions:
* a word is a list of naturals (the uint8 letter codes);
* the hint matrix is a list of rows, each row a list of cells, each cell a
  list of 2*L byte values;
* numpy integer indexing (negative wrap-around, IndexError out of range) is
  modelled by npGet over Int indices returning Option;
* Python exceptions are modelled by Except over the Err type below;
* uint8 / uint32 arithmetic never overflows on the values the theorems
  quantify over (letters 65..90, max merges, 32-bit masks of bits 0..25),
  so Nat arithmetic is exact there;
* float arithmetic is idealised as exact real / rational arithmetic: the
  per-secret compatible counts (the data both outputs are a function of)
  are computed exactly as naturals, expected remaining exactly as a
  rational, and the entropy as a real number.
-/

namespace WordleFreq

abbrev Word := List Nat

abbrev HintMat := List (List (List Nat))

/-- L as the Python code obtains it from words_array.shape: the common word
length (length of the first word; every pool the theorems quantify over is
rectangular). -/
def wordLen (ws : List Word) : Nat :=
  match ws with
  | [] => 0
  | w :: _ => w.length

/-- Position-match section of the hint of a pair of words: slot p holds the
common letter when the words agree at p and 0 otherwise.  This is the net
effect of the per-position writes of the naive and numba builders and of
the broadcast np.where(position_matches, words, 0) of the other tiers. -/
def posPart (a b : Word) : List Nat :=
  List.zipWith (fun x y => if x = y then x else 0) a b

/-- Pad a list with zeroes up to length n (the unwritten tail of a
zero-initialised buffer section). -/
def padTo (n : Nat) (l : List Nat) : List Nat :=
  l ++ List.replicate (n - l.length) 0

/-- Auxiliary for firstDedup: drop letters already seen. -/
def firstDedupAux (seen : List Nat) : List Nat → List Nat
  | [] => []
  | c :: rest => if c ∈ seen then firstDedupAux seen rest else c :: firstDedupAux (c :: seen) rest

/-- Keep the first occurrence of every value, in order of first occurrence.
This is the order in which the numba kernels pack common letters: they scan
word j and consume a presence flag so each letter is packed once. -/
def firstDedup (l : List Nat) : List Nat := firstDedupAux [] l

/-- Common letters of two words in ascending order.  This models
sorted(set_i & set_j) of compute_cross_hints_matrix_fast and the ascending
np.nonzero scan over the AND of the 256-wide presence rows of
compute_cross_hints_matrix_optimized.  The naive tier enumerates the Python
set intersection set(word_i) & set(word_j) whose iteration order is
implementation defined; it is modelled with the same ascending enumeration,
and every theorem about these slots treats them as a set of letter codes. -/
def letters_sorted_common (a b : Word) : List Nat :=
  (a.toFinset ∩ b.toFinset).sort (· ≤ ·)

/-- Common letters as packed by the numba kernels for a pair (i, j), i <= j:
the letters of word j in order of first occurrence in word j, kept when they
occur in word i (the presence_i array), each at most once. -/
def letters_scan_common (a b : Word) : List Nat :=
  (firstDedup b).filter (fun c => decide (c ∈ a))

/-- Read cell (i, j) of a hint matrix (total; out-of-range reads give [],
the theorems only read in range). -/
def cellAt (m : HintMat) (i j : Nat) : List Nat :=
  (m.getD i []).getD j []

/-- Overwrite cell (i, j) of a hint matrix (no-op out of range, as the
builders only write in range). -/
def writeCell (m : HintMat) (i j : Nat) (v : List Nat) : HintMat :=
  m.set i ((m.getD i []).set j v)

/-- One iteration of the builders' pair loop at (i, j), i <= j: write the
value h old i j into cell (i, j) and then into its mirror cell (j, i),
where h receives the current content of the written cell (the naive and
numba tiers overwrite whole cells and ignore it; the optimized and fast
tiers assign the slice [L, L+num) keeping the position section). -/
def pairWrite (h : List Nat → Nat → Nat → List Nat) (m : HintMat) (i j : Nat) : HintMat :=
  let m1 := writeCell m i j (h (cellAt m i j) i j)
  writeCell m1 j i (h (cellAt m1 j i) i j)

/-- The builders' common loop structure: for i in range(N): for j in
range(i, N): process pair (i, j). -/
def pairLoop (N : Nat) (g : HintMat → Nat → Nat → HintMat) (init : HintMat) : HintMat :=
  (List.range N).foldl (fun m i => (List.range' i (N - i)).foldl (fun m' j => g m' i j) m) init

/-- np.zeros((N, N, 2*L), dtype=np.uint8). -/
def zeros_matrix (N L : Nat) : HintMat :=
  List.replicate N (List.replicate N (List.replicate (2 * L) 0))

/-- numpy slice assignment cell[start : start + len(v)] = v (within
bounds, as in the builders). -/
def sliceSet (cell : List Nat) (start : Nat) (v : List Nat) : List Nat :=
  cell.take start ++ v ++ cell.drop (start + v.length)

/-- Full cell content written by compute_cross_hints_matrix for the pair
(i, j): the position matches, then the packed common-letter set, then the
untouched zero tail. -/
def cell_naive (ws : List Word) (i j : Nat) : List Nat :=
  posPart (ws.getD i []) (ws.getD j []) ++
    padTo (wordLen ws) (letters_sorted_common (ws.getD i []) (ws.getD j []))

/-- Full cell content written by the numba kernels for the pair (i, j),
i <= j: position matches, then the common letters in word-j scan order. -/
def cell_scan (ws : List Word) (i j : Nat) : List Nat :=
  posPart (ws.getD i []) (ws.getD j []) ++
    padTo (wordLen ws) (letters_scan_common (ws.getD i []) (ws.getD j []))

/-- The state of the matrix after the broadcast step
hints[:, :, :L] = np.where(position_matches, words, 0) of the optimized and
fast tiers: every cell holds its position section followed by zeroes. -/
def pos_broadcast (ws : List Word) : HintMat :=
  (List.range ws.length).map (fun i =>
    (List.range ws.length).map (fun j =>
      padTo (2 * wordLen ws) (posPart (ws.getD i []) (ws.getD j []))))

/-- compute_cross_hints_matrix: the naive double loop.  Each pair write is
the net effect of the per-position and per-common-letter stores. -/
def compute_cross_hints_matrix (ws : List Word) : HintMat :=
  pairLoop ws.length (pairWrite (fun _ i j => cell_naive ws i j))
    (zeros_matrix ws.length (wordLen ws))

/-- compute_cross_hints_matrix_optimized: broadcast position section, then
per pair the slice write hints[i, j, L:L+num] = common[:num] with
num = min(len(common), L), mirrored to (j, i). -/
def compute_cross_hints_matrix_optimized (ws : List Word) : HintMat :=
  pairLoop ws.length
    (pairWrite (fun old i j =>
      sliceSet old (wordLen ws)
        ((letters_sorted_common (ws.getD i []) (ws.getD j [])).take (wordLen ws))))
    (pos_broadcast ws)

/-- compute_cross_hints_matrix_fast: same broadcast position step; common
letters via sorted(set_i & set_j) with the same truncated slice write (the
num_common > 0 guard only skips writes that would be empty). -/
def compute_cross_hints_matrix_fast (ws : List Word) : HintMat :=
  pairLoop ws.length
    (pairWrite (fun old i j =>
      sliceSet old (wordLen ws)
        ((letters_sorted_common (ws.getD i []) (ws.getD j [])).take (wordLen ws))))
    (pos_broadcast ws)

/-- compute_cross_hints_matrix_numba (serial kernel), modelled under the
pure-Python fallback semantics (njit as identity): per pair, position
matches written per position, then common letters packed in word-j scan
order into both cells. -/
def compute_cross_hints_matrix_numba (ws : List Word) : HintMat :=
  pairLoop ws.length (pairWrite (fun _ i j => cell_scan ws i j))
    (zeros_matrix ws.length (wordLen ws))

/-- compute_cross_hints_matrix_numba_parallel: the prange over rows is
deterministic (each worker owns disjoint cells), so the net result is the
same pair loop as the serial kernel. -/
def compute_cross_hints_matrix_numba_parallel (ws : List Word) : HintMat :=
  pairLoop ws.length (pairWrite (fun _ i j => cell_scan ws i j))
    (zeros_matrix ws.length (wordLen ws))

/-- The Python exceptions the evaluators can raise: numpy IndexError,
numpy broadcast ValueError (ragged merge or over-full letter slice write),
the "p_k is zero" ValueError, and Python float division by zero. -/
inductive Err where
  | indexError : Err
  | broadcastError : Err
  | invariantViolation : Err
  | zeroDivision : Err
deriving DecidableEq, Repr

deriving instance DecidableEq for Except

/-- numpy basic integer indexing along one axis: indices in [0, len) are
direct, indices in [-len, 0) wrap around (alias len + i), anything else
raises IndexError (here: none). -/
def npGet {α : Type} (l : List α) (i : Int) : Option α :=
  if 0 ≤ i then l[i.toNat]?
  else if -(l.length : Int) ≤ i then l[((l.length : Int) + i).toNat]?
  else none

/-- One iteration of the hint-merging loop of evaluate_opening_entropy for
secret k and opening index i: read hint_matrix[i, k]; merge the position
sections by elementwise max (np.max of the stacked pair needs both slices
to have length L, otherwise numpy raises on the ragged stack); union the
letter slots minus 0 into the running set, and check that writing the
packed union back into the L letter slots fits (otherwise the slice
assignment raises a broadcast ValueError). -/
def ref_merge_step (L : Nat) (mat : HintMat) (k : Nat)
    (st : List Nat × Finset Nat) (i : Int) : Except Err (List Nat × Finset Nat) :=
  match npGet mat i with
  | none => .error .indexError
  | some row =>
    match npGet row (k : Int) with
    | none => .error .indexError
    | some cell =>
      if (cell.take L).length = L then
        let u := st.2 ∪ ((cell.drop L).filter (fun c => decide (c ≠ 0))).toFinset
        if L < u.card then .error .broadcastError
        else .ok (List.zipWith max st.1 (cell.take L), u)
      else .error .broadcastError

/-- The hint-merging loop of evaluate_opening_entropy over the opening
indices, propagating the first error. -/
def merge_hints (L : Nat) (mat : HintMat) (k : Nat) :
    List Nat × Finset Nat → List Int → Except Err (List Nat × Finset Nat)
  | st, [] => .ok st
  | st, i :: rest =>
    match ref_merge_step L mat k st i with
    | .error e => .error e
    | .ok st' => merge_hints L mat k st' rest

/-- Position compatibility of a word with a merged position hint:
np.all((hint == 0) | (word == hint)) over the paired slots. -/
def compatible_positions (pos w : List Nat) : Bool :=
  (List.zip pos w).all (fun pc => pc.1 == 0 || pc.2 == pc.1)

/-- The compatible-word count of evaluate_opening_entropy for a merged
state: words that satisfy every non-zero position slot and contain every
letter of the merged letter set. -/
def ref_compatible_count (ws : List Word) (st : List Nat × Finset Nat) : Nat :=
  (ws.filter (fun w => compatible_positions st.1 w && decide (st.2 ⊆ w.toFinset))).length

/-- Per-secret body of evaluate_opening_entropy: merge, count, raise
ValueError when p_k = count / N would be zero. -/
def ref_secret_count (ws : List Word) (mat : HintMat) (sel : List Int) (k : Nat) :
    Except Err Nat :=
  match merge_hints (wordLen ws) mat k (List.replicate (wordLen ws) 0, ∅) sel with
  | .error e => .error e
  | .ok st =>
    let c := ref_compatible_count ws st
    if c = 0 then .error .invariantViolation else .ok c

/-- Sequential accumulation over the secrets, propagating the first
error (the k loop of every evaluator). -/
def except_list (f : Nat → Except Err Nat) : List Nat → Except Err (List Nat)
  | [] => .ok []
  | k :: rest =>
    match f k with
    | .error e => .error e
    | .ok c =>
      match except_list f rest with
      | .error e => .error e
      | .ok cs => .ok (c :: cs)

/-- The compatible counts of evaluate_opening_entropy for all secrets
k in range(N). -/
def ref_counts (ws : List Word) (mat : HintMat) (sel : List Int) : Except Err (List Nat) :=
  except_list (ref_secret_count ws mat sel) (List.range ws.length)

/-- The pair (expected_entropy, expected_remaining) every tier derives from
the per-secret compatible counts: sum of -log2(count / N) over the secrets
divided by N, and the exact rational sum of counts divided by N. -/
noncomputable def score (N : Nat) (cs : List Nat) : ℝ × ℚ :=
  ((cs.map (fun (c : Nat) => -Real.logb 2 ((c : ℝ) / (N : ℝ)))).sum / (N : ℝ),
   (cs.map (fun (c : Nat) => (c : ℚ))).sum / (N : ℚ))

/-- evaluate_opening_entropy (reference tier).  The per-secret loop runs
first; the final divisions by N raise ZeroDivisionError on an empty pool.
When a count is 0 the loop has already raised, so the score never takes
log2 of 0 here. -/
noncomputable def evaluate_opening_entropy (ws : List Word) (mat : HintMat) (sel : List Int) :
    Except Err (ℝ × ℚ) :=
  match ref_counts ws mat sel with
  | .error e => .error e
  | .ok cs => if ws.length = 0 then .error .zeroDivision else .ok (score ws.length cs)

/-- Letter-presence bitmask of a word: bit (c - 65) per letter c, the
uint32 letters_presence of the optimized and numba tiers (1 << n is 2 ^ n;
exact for the letter codes 65..90 the theorems quantify over — numpy's
behaviour on shifts by letters outside that range is not modelled). -/
def presence_mask (w : Word) : Nat :=
  w.foldl (fun m c => m ||| 2 ^ (c - 65)) 0

/-- Bitmask of the non-zero letters of the L letter slots of a cell (the
mask contribution of hint_matrix[i, k, L + pos] for pos in range(L)). -/
def slots_mask (L : Nat) (cell : List Nat) : Nat :=
  (((cell.drop L).take L).filter (fun c => decide (c ≠ 0))).foldl
    (fun m c => m ||| 2 ^ (c - 65)) 0

/-- The fancy indexing hint_matrix[opening_words_indices]: resolves every
index against the matrix row axis, failing (IndexError) as soon as one is
out of [-rows, rows). -/
def np_rows (mat : HintMat) : List Int → Option (List (List (List Nat)))
  | [] => some []
  | i :: rest =>
    match npGet mat i with
    | none => none
    | some row =>
      match np_rows mat rest with
      | none => none
      | some rows => some (row :: rows)

/-- Column k of a list of selected rows (the per-k reads of
merged_positions[k] / merged_letters_mask[k]). -/
def np_cells (k : Nat) : List (List (List Nat)) → Option (List (List Nat))
  | [] => some []
  | row :: rest =>
    match npGet row (k : Int) with
    | none => none
    | some cell =>
      match np_cells k rest with
      | none => none
      | some cells => some (cell :: cells)

/-- The compatible-word count shared by the optimized and numba
evaluators: a word passes when it satisfies every non-zero merged position
slot and its presence bitmask contains the merged letter bitmask. -/
def mask_compatible_count (ws : List Word) (pos : List Nat) (mask : Nat) : Nat :=
  (ws.filter (fun w =>
    compatible_positions pos w && (mask &&& presence_mask w == mask))).length

/-- Per-secret body of evaluate_opening_entropy_optimized: the vectorized
position max over the selected rows, the merged letter bitmask, and the
bitmask compatibility count, raising ValueError on a zero count. -/
def opt_secret_count (ws : List Word) (L : Nat) (rows : List (List (List Nat))) (k : Nat) :
    Except Err Nat :=
  match np_cells k rows with
  | none => .error .indexError
  | some cells =>
    if cells.all (fun c => (c.take L).length = L) then
      let pos := cells.foldl (fun p c => List.zipWith max p (c.take L)) (List.replicate L 0)
      let mask := cells.foldl (fun m c => m ||| slots_mask L c) 0
      let cnt := mask_compatible_count ws pos mask
      if cnt = 0 then .error .invariantViolation else .ok cnt
    else .error .broadcastError

/-- evaluate_opening_entropy_optimized: empty selections short-circuit to
(0.0, N) before touching the matrix; otherwise the fancy indexing
validates all opening indices up front, and the final divisions raise
ZeroDivisionError on an empty pool. -/
noncomputable def evaluate_opening_entropy_optimized (ws : List Word) (mat : HintMat)
    (sel : List Int) : Except Err (ℝ × ℚ) :=
  if sel = [] then .ok ((0 : ℝ), (ws.length : ℚ))
  else
    match np_rows mat sel with
    | none => .error .indexError
    | some rows =>
      match except_list (opt_secret_count ws (wordLen ws) rows) (List.range ws.length) with
      | .error e => .error e
      | .ok cs => if ws.length = 0 then .error .zeroDivision else .ok (score ws.length cs)

/-- One iteration of the numba kernel's merge for secret k and opening
index i, under the pure-Python fallback semantics (njit as identity):
scalar reads hint_matrix[i, k, pos] raise IndexError when the cell is
shorter than the positions read; position slots merge by max, letter slots
or their bits into the running mask. -/
def numba_merge_step (L : Nat) (mat : HintMat) (k : Nat)
    (st : List Nat × Nat) (i : Int) : Except Err (List Nat × Nat) :=
  match npGet mat i with
  | none => .error .indexError
  | some row =>
    match npGet row (k : Int) with
    | none => .error .indexError
    | some cell =>
      if cell.length < L then .error .indexError
      else if cell.length < 2 * L then .error .indexError
      else .ok (List.zipWith max st.1 (cell.take L), st.2 ||| slots_mask L cell)

/-- The numba kernel's merge loop over the opening indices. -/
def numba_merge (L : Nat) (mat : HintMat) (k : Nat) :
    List Nat × Nat → List Int → Except Err (List Nat × Nat)
  | st, [] => .ok st
  | st, i :: rest =>
    match numba_merge_step L mat k st i with
    | .error e => .error e
    | .ok st' => numba_merge L mat k st' rest

/-- Per-secret body of the serial numba kernel: merge and count.  There is
no zero-count check: a zero count flows into -log2(0) (an infinite entropy
term in the Python code; the theorems about this tier only use that no
error is raised, never the entropy value of a zero count). -/
def numba_secret_count (ws : List Word) (mat : HintMat) (sel : List Int) (k : Nat) :
    Except Err Nat :=
  match numba_merge (wordLen ws) mat k (List.replicate (wordLen ws) 0, 0) sel with
  | .error e => .error e
  | .ok st => .ok (mask_compatible_count ws st.1 st.2)

/-- evaluate_opening_entropy_numba: empty selections short-circuit before
the presence precomputation and the kernel. -/
noncomputable def evaluate_opening_entropy_numba (ws : List Word) (mat : HintMat)
    (sel : List Int) : Except Err (ℝ × ℚ) :=
  if sel = [] then .ok ((0 : ℝ), (ws.length : ℚ))
  else
    match except_list (numba_secret_count ws mat sel) (List.range ws.length) with
    | .error e => .error e
    | .ok cs => if ws.length = 0 then .error .zeroDivision else .ok (score ws.length cs)

/-- Per-secret body of the parallel numba kernel; the prange iterations
write disjoint result slots, so the net per-secret computation is the same
as the serial kernel's. -/
def numba_par_secret_count (ws : List Word) (mat : HintMat) (sel : List Int) (k : Nat) :
    Except Err Nat :=
  match numba_merge (wordLen ws) mat k (List.replicate (wordLen ws) 0, 0) sel with
  | .error e => .error e
  | .ok st => .ok (mask_compatible_count ws st.1 st.2)

/-- evaluate_opening_entropy_numba_parallel: short-circuit on empty
selections, then the parallel kernel's per-secret results are summed in
index order and divided by N. -/
noncomputable def evaluate_opening_entropy_numba_parallel (ws : List Word) (mat : HintMat)
    (sel : List Int) : Except Err (ℝ × ℚ) :=
  if sel = [] then .ok ((0 : ℝ), (ws.length : ℚ))
  else
    match except_list (numba_par_secret_count ws mat sel) (List.range ws.length) with
    | .error e => .error e
    | .ok cs => if ws.length = 0 then .error .zeroDivision else .ok (score ws.length cs)

/-- The cell of the matrix used when merging opening index i against
secret k, with out-of-range reads collapsed to [] (only used by the
specification-level merged state below, under hypotheses that make every
read succeed). -/
def resolve_cell (mat : HintMat) (k : Nat) (i : Int) : List Nat :=
  match npGet mat i with
  | none => []
  | some row => (npGet row (k : Int)).getD []

/-- Specification-level merged position hint for secret k: elementwise max
of the selected cells' position sections. -/
def merged_pos (L : Nat) (mat : HintMat) (sel : List Int) (k : Nat) : List Nat :=
  (sel.map (resolve_cell mat k)).foldl
    (fun p c => List.zipWith max p (c.take L)) (List.replicate L 0)

/-- Specification-level merged letter set for secret k: union of the
selected cells' non-zero letter slots. -/
def merged_letters (L : Nat) (mat : HintMat) (sel : List Int) (k : Nat) : Finset Nat :=
  (sel.map (resolve_cell mat k)).foldl
    (fun u c => u ∪ ((c.drop L).filter (fun x => decide (x ≠ 0))).toFinset) ∅

/-- Specification-level merged letter bitmask for secret k: the or of the
selected cells' letter-slot bits. -/
def merged_mask (L : Nat) (mat : HintMat) (sel : List Int) (k : Nat) : Nat :=
  (sel.map (resolve_cell mat k)).foldl (fun m c => m ||| slots_mask L c) 0

/-- Specification-level compatible count for secret k. -/
def canon_count (ws : List Word) (mat : HintMat) (sel : List Int) (k : Nat) : Nat :=
  ref_compatible_count ws
    (merged_pos (wordLen ws) mat sel k, merged_letters (wordLen ws) mat sel k)

/-- A valid word pool: rectangular with uppercase letter codes 65..90
(what the numpy (N, L) uint8 array of encoded uppercase words is). -/
def PoolOk (ws : List Word) : Prop :=
  ∀ w ∈ ws, w.length = wordLen ws ∧ ∀ c ∈ w, 65 ≤ c ∧ c ≤ 90

/-- A hint matrix of shape (N, N, 2*L) whose letter slots hold 0 or
uppercase letter codes (the shape a built matrix has, preserved under
value tampering). -/
def MatOk (N L : Nat) (mat : HintMat) : Prop :=
  mat.length = N ∧ ∀ row ∈ mat, row.length = N ∧
    ∀ cell ∈ row, cell.length = 2 * L ∧ ∀ c ∈ cell.drop L, c = 0 ∨ (65 ≤ c ∧ c ≤ 90)

/-- An opening selection of in-range indices. -/
def SelOk (N : Nat) (sel : List Int) : Prop :=
  ∀ i ∈ sel, 0 ≤ i ∧ i < (N : Int)

/-- A matrix produced from the pool by one of the five builder tiers. -/
def BuiltFrom (ws : List Word) (mat : HintMat) : Prop :=
  mat = compute_cross_hints_matrix ws ∨
  mat = compute_cross_hints_matrix_optimized ws ∨
  mat = compute_cross_hints_matrix_fast ws ∨
  mat = compute_cross_hints_matrix_numba ws ∨
  mat = compute_cross_hints_matrix_numba_parallel ws

/-- The concrete pool CAT, BAT, CAR of the specification's test scenario. -/
def poolCat : List Word := [[67, 65, 84], [66, 65, 84], [67, 65, 82]]

/-- A two-word pool CAT, BAT used by counterexamples. -/
def poolTwo : List Word := [[67, 65, 84], [66, 65, 84]]

/-- Proof infrastructure: the reads hint_matrix[i, k] of the reference
evaluator succeed and the cell is long enough for the position merge. -/
def ref_access (L : Nat) (mat : HintMat) (k : Nat) (i : Int) : Prop :=
  ∃ row, npGet mat i = some row ∧ ∃ cell, npGet row (k : Int) = some cell ∧ L ≤ cell.length

/-- Proof infrastructure: the scalar reads hint_matrix[i, k, pos] of the
numba kernels succeed for every pos in range(2 L). -/
def kernel_access (L : Nat) (mat : HintMat) (k : Nat) (i : Int) : Prop :=
  ∃ row, npGet mat i = some row ∧ ∃ cell, npGet row (k : Int) = some cell ∧ 2 * L ≤ cell.length

/-- Proof infrastructure: an N-by-N grid of cells. -/
def IsGrid (N : Nat) (m : HintMat) : Prop :=
  m.length = N ∧ ∀ r ∈ m, r.length = N

/-- Proof infrastructure: the final content of cell (a, b) of a pair loop
whose write action applies h to the old cell content: the cell of pair
(min, max), with the diagonal written twice. -/
def pairTarget (h : List Nat → Nat → Nat → List Nat) (init : HintMat) (a b : Nat) : List Nat :=
  if a < b then h (cellAt init a b) a b
  else if b < a then h (cellAt init a b) b a
  else h (h (cellAt init a a) a a) a a

/-- Proof infrastructure: pair (a, b) has been written once the loop is at
outer row i, inner column j. -/
def Processed (i j a b : Nat) : Prop :=
  min a b < i ∨ (min a b = i ∧ max a b < j)

instance (i j a b : Nat) : Decidable (Processed i j a b) :=
  decidable_of_iff (min a b < i ∨ (min a b = i ∧ max a b < j)) Iff.rfl

/-- Proof infrastructure: loop invariant of the builders' pair loop. -/
def LoopInv (N : Nat) (h : List Nat → Nat → Nat → List Nat) (init : HintMat)
    (i j : Nat) (m : HintMat) : Prop :=
  IsGrid N m ∧ ∀ a b, a < N → b < N →
    cellAt m a b = if Processed i j a b then pairTarget h init a b else cellAt init a b

end WordleFreq

namespace WordleFreq

theorem isGrid_zeros (N L : Nat) : IsGrid N (zeros_matrix N L) := by
  constructor
  · simp [zeros_matrix]
  · intro r hr
    rw [List.eq_of_mem_replicate hr]
    simp

theorem isGrid_pos_broadcast (ws : List Word) : IsGrid ws.length (pos_broadcast ws) := by
  constructor
  · simp [pos_broadcast]
  · intro r hr
    simp only [pos_broadcast, List.mem_map] at hr
    obtain ⟨i, _, rfl⟩ := hr
    simp

theorem getD_eq_getElem_of_lt {α : Type} (l : List α) (d : α) {i : Nat} (h : i < l.length) :
    l.getD i d = l[i] := by
  simp [List.getD_eq_getElem?_getD, List.getElem?_eq_getElem h]

theorem row_length_of_grid {N : Nat} {m : HintMat} (hg : IsGrid N m) {i : Nat} (hi : i < N) :
    (m.getD i []).length = N := by
  have hl : i < m.length := by rw [hg.1]; exact hi
  rw [getD_eq_getElem_of_lt m [] hl]
  exact hg.2 _ (List.getElem_mem hl)

theorem isGrid_writeCell {N : Nat} {m : HintMat} (hg : IsGrid N m) {i : Nat} (hi : i < N)
    (j : Nat) (v : List Nat) : IsGrid N (writeCell m i j v) := by
  constructor
  · simp [writeCell, hg.1]
  · intro r hr
    rcases List.mem_or_eq_of_mem_set hr with h | h
    · exact hg.2 _ h
    · subst h
      rw [List.length_set]
      exact row_length_of_grid hg hi

theorem cellAt_writeCell_self {N : Nat} {m : HintMat} (hg : IsGrid N m) {i j : Nat}
    (hi : i < N) (hj : j < N) (v : List Nat) : cellAt (writeCell m i j v) i j = v := by
  have hl : i < m.length := by rw [hg.1]; exact hi
  have hrow : j < ((m[i]?).getD []).length := by
    have := row_length_of_grid hg hi
    rw [List.getD_eq_getElem?_getD] at this
    rw [this]
    exact hj
  simp only [cellAt, writeCell, List.getD_eq_getElem?_getD]
  rw [List.getElem?_set_self hl]
  simp only [Option.getD_some]
  rw [List.getElem?_set_self hrow]
  rfl

theorem cellAt_writeCell_ne {m : HintMat} {i j a b : Nat} (hne : ¬(a = i ∧ b = j))
    (v : List Nat) : cellAt (writeCell m i j v) a b = cellAt m a b := by
  by_cases hai : a = i
  · subst hai
    have hbj : j ≠ b := fun hbj => hne ⟨rfl, hbj.symm⟩
    by_cases hl : a < m.length
    · simp only [cellAt, writeCell, List.getD_eq_getElem?_getD]
      rw [List.getElem?_set_self hl]
      simp only [Option.getD_some]
      rw [List.getElem?_set_ne hbj]
    · simp only [cellAt, writeCell, List.getD_eq_getElem?_getD]
      rw [List.set_eq_of_length_le (Nat.le_of_not_lt hl)]
  · simp only [cellAt, writeCell, List.getD_eq_getElem?_getD]
    rw [List.getElem?_set_ne (fun h => hai h.symm)]

theorem isGrid_pairWrite {N : Nat} {m : HintMat}
    (h : List Nat → Nat → Nat → List Nat) (hg : IsGrid N m) {i j : Nat}
    (hi : i < N) (hj : j < N) : IsGrid N (pairWrite h m i j) :=
  isGrid_writeCell (isGrid_writeCell hg hi _ _) hj _ _

theorem cellAt_pairWrite_ne {m : HintMat} (h : List Nat → Nat → Nat → List Nat)
    {i j a b : Nat} (h1 : ¬(a = i ∧ b = j)) (h2 : ¬(a = j ∧ b = i)) :
    cellAt (pairWrite h m i j) a b = cellAt m a b := by
  unfold pairWrite
  rw [cellAt_writeCell_ne h2, cellAt_writeCell_ne h1]

theorem processed_start (a b : Nat) : ¬ Processed 0 0 a b := by
  unfold Processed; omega

theorem processed_self {i j : Nat} (hij : i ≤ j) : ¬ Processed i j i j := by
  unfold Processed; omega

theorem loopInv_step {N : Nat} {h : List Nat → Nat → Nat → List Nat} {init m : HintMat}
    {i j : Nat} (hij : i ≤ j) (hi : i < N) (hj : j < N)
    (hinv : LoopInv N h init i j m) : LoopInv N h init i (j + 1) (pairWrite h m i j) := by
  obtain ⟨hg, hcell⟩ := hinv
  have hmij : cellAt m i j = cellAt init i j := by
    rw [hcell i j hi hj, if_neg (processed_self hij)]
  refine ⟨isGrid_pairWrite h hg hi hj, ?_⟩
  intro a b ha hb
  by_cases heq : i = j
  · subst heq
    by_cases hab : a = i ∧ b = i
    · rw [hab.1, hab.2]
      simp only [pairWrite]
      rw [cellAt_writeCell_self (isGrid_writeCell hg hi _ _) hi hi]
      rw [cellAt_writeCell_self hg hi hi, hmij]
      have hproc : Processed i (i + 1) i i := by unfold Processed; omega
      rw [if_pos hproc]
      unfold pairTarget
      simp
    · rw [cellAt_pairWrite_ne h (fun hc => hab hc) (fun hc => hab hc)]
      rw [hcell a b ha hb]
      have hiff : Processed i (i + 1) a b ↔ Processed i i a b := by
        unfold Processed
        omega
      exact if_congr hiff.symm rfl rfl
  · have hlt : i < j := Nat.lt_of_le_of_ne hij heq
    have hmji : cellAt m j i = cellAt init j i := by
      rw [hcell j i hj hi]
      have : ¬ Processed i j j i := by unfold Processed; omega
      rw [if_neg this]
    have hcell_ij : cellAt (pairWrite h m i j) i j = h (cellAt init i j) i j := by
      simp only [pairWrite]
      rw [cellAt_writeCell_ne (show ¬(i = j ∧ j = i) by omega)]
      rw [cellAt_writeCell_self hg hi hj, hmij]
    have hcell_ji : cellAt (pairWrite h m i j) j i = h (cellAt init j i) i j := by
      simp only [pairWrite]
      rw [cellAt_writeCell_self (isGrid_writeCell hg hi _ _) hj hi]
      rw [cellAt_writeCell_ne (show ¬(j = i ∧ i = j) by omega), hmji]
    by_cases hab1 : a = i ∧ b = j
    · obtain ⟨rfl, rfl⟩ := hab1
      rw [hcell_ij]
      have hproc : Processed a (b + 1) a b := by unfold Processed; omega
      rw [if_pos hproc]
      unfold pairTarget
      rw [if_pos hlt]
    · by_cases hab2 : a = j ∧ b = i
      · obtain ⟨rfl, rfl⟩ := hab2
        rw [hcell_ji]
        have hproc : Processed b (a + 1) a b := by unfold Processed; omega
        rw [if_pos hproc]
        unfold pairTarget
        rw [if_neg (by omega), if_pos hlt]
      · rw [cellAt_pairWrite_ne h hab1 hab2, hcell a b ha hb]
        have hiff : Processed i (j + 1) a b ↔ Processed i j a b := by
          unfold Processed
          omega
        exact if_congr hiff.symm rfl rfl

theorem loopInv_inner {N : Nat} {h : List Nat → Nat → Nat → List Nat} {init : HintMat}
    {i : Nat} (hi : i < N) :
    ∀ (n j0 : Nat) (m : HintMat), i ≤ j0 → j0 + n = N → LoopInv N h init i j0 m →
      LoopInv N h init i N ((List.range' j0 n).foldl (fun m' j => pairWrite h m' i j) m)
  | 0, j0, m, _, hn, hinv => by
    have hj0 : j0 = N := by omega
    subst hj0
    simpa using hinv
  | n + 1, j0, m, hij, hn, hinv => by
    rw [List.range'_succ, List.foldl_cons]
    exact loopInv_inner hi n (j0 + 1) _ (by omega)
      (by omega) (loopInv_step hij hi (by omega) hinv)

theorem loopInv_shift {N : Nat} {h : List Nat → Nat → Nat → List Nat} {init m : HintMat}
    {i : Nat} (hinv : LoopInv N h init i N m) : LoopInv N h init (i + 1) (i + 1) m := by
  refine ⟨hinv.1, ?_⟩
  intro a b ha hb
  rw [hinv.2 a b ha hb]
  have : Processed i N a b ↔ Processed (i + 1) (i + 1) a b := by
    unfold Processed
    have hmax : max a b < N := by omega
    omega
  by_cases hp : Processed i N a b
  · rw [if_pos hp, if_pos (this.mp hp)]
  · rw [if_neg hp, if_neg (fun hc => hp (this.mpr hc))]

theorem loopInv_outer {N : Nat} {h : List Nat → Nat → Nat → List Nat} {init : HintMat} :
    ∀ (n i0 : Nat) (m : HintMat), i0 + n = N → LoopInv N h init i0 i0 m →
      LoopInv N h init N N
        ((List.range' i0 n).foldl
          (fun m i => (List.range' i (N - i)).foldl (fun m' j => pairWrite h m' i j) m) m)
  | 0, i0, m, hn, hinv => by
    have hi0 : i0 = N := by omega
    subst hi0
    simpa using hinv
  | n + 1, i0, m, hn, hinv => by
    rw [List.range'_succ, List.foldl_cons]
    have hi0 : i0 < N := by omega
    have step := loopInv_inner hi0 (N - i0) i0 m (Nat.le_refl i0) (by omega) hinv
    exact loopInv_outer n (i0 + 1) _ (by omega) (loopInv_shift step)

theorem pairLoop_cellAt {N : Nat} (h : List Nat → Nat → Nat → List Nat) {init : HintMat}
    (hg : IsGrid N init) {a b : Nat} (ha : a < N) (hb : b < N) :
    cellAt (pairLoop N (pairWrite h) init) a b = pairTarget h init a b := by
  have hbase : LoopInv N h init 0 0 init := by
    refine ⟨hg, ?_⟩
    intro a' b' _ _
    rw [if_neg (processed_start a' b')]
  have hfin := loopInv_outer N 0 init (Nat.zero_add N) hbase
  unfold pairLoop
  rw [List.range_eq_range']
  rw [hfin.2 a b ha hb]
  have : Processed N N a b := by unfold Processed; omega
  rw [if_pos this]

theorem posPart_comm (a b : Word) : posPart a b = posPart b a := by
  unfold posPart
  apply List.zipWith_comm_of_comm
  intro x y
  by_cases h : x = y
  · subst h; rfl
  · rw [if_neg h, if_neg (fun h' => h h'.symm)]

theorem length_posPart (a b : Word) : (posPart a b).length = min a.length b.length :=
  List.length_zipWith _ _ _

theorem word_mem {ws : List Word} {a : Nat} (ha : a < ws.length) : ws.getD a [] ∈ ws := by
  rw [getD_eq_getElem_of_lt ws [] ha]
  exact List.getElem_mem ha

theorem word_length {ws : List Word} (hp : PoolOk ws) {a : Nat} (ha : a < ws.length) :
    (ws.getD a []).length = wordLen ws :=
  (hp _ (word_mem ha)).1

theorem posPart_length_pool {ws : List Word} (hp : PoolOk ws) {a b : Nat}
    (ha : a < ws.length) (hb : b < ws.length) :
    (posPart (ws.getD a []) (ws.getD b [])).length = wordLen ws := by
  rw [length_posPart, word_length hp ha, word_length hp hb, Nat.min_self]

theorem length_letters_sorted (a b : Word) :
    (letters_sorted_common a b).length ≤ a.length := by
  unfold letters_sorted_common
  rw [Finset.length_sort]
  exact le_trans (Finset.card_le_card Finset.inter_subset_left) (List.toFinset_card_le a)

theorem letters_sorted_take (a b : Word) {L : Nat} (h : a.length ≤ L) :
    (letters_sorted_common a b).take L = letters_sorted_common a b :=
  List.take_of_length_le (le_trans (length_letters_sorted a b) h)

theorem letters_sorted_comm (a b : Word) :
    letters_sorted_common a b = letters_sorted_common b a := by
  unfold letters_sorted_common
  rw [Finset.inter_comm]

theorem drop_replicate_zero {L n : Nat} (h : n ≤ L) :
    (List.replicate L (0 : Nat)).drop n = List.replicate (L - n) 0 := by
  conv_lhs => rw [show L = n + (L - n) by omega, List.replicate_add]
  rw [List.drop_left' (List.length_replicate _ _)]

theorem sliceSet_shape {L : Nat} {pos c : List Nat} (hpos : pos.length = L)
    (hc : c.length ≤ L) : sliceSet (padTo (2 * L) pos) L c = pos ++ padTo L c := by
  unfold sliceSet padTo
  rw [hpos, show 2 * L - L = L by omega]
  rw [List.take_left' hpos, ← List.drop_drop, List.drop_left' hpos, drop_replicate_zero hc]
  rw [List.append_assoc]

theorem sliceSet_idem {L : Nat} {pos c : List Nat} (hpos : pos.length = L)
    (hc : c.length ≤ L) :
    sliceSet (sliceSet (padTo (2 * L) pos) L c) L c = sliceSet (padTo (2 * L) pos) L c := by
  rw [sliceSet_shape hpos hc]
  unfold sliceSet padTo
  rw [List.take_left' hpos, ← List.drop_drop, List.drop_left' hpos, List.drop_left]
  rw [List.append_assoc]

theorem naive_cellAt (ws : List Word) {a b : Nat} (ha : a < ws.length) (hb : b < ws.length) :
    cellAt (compute_cross_hints_matrix ws) a b =
      if a ≤ b then cell_naive ws a b else cell_naive ws b a := by
  unfold compute_cross_hints_matrix
  rw [pairLoop_cellAt _ (isGrid_zeros _ _) ha hb]
  unfold pairTarget
  rcases Nat.lt_trichotomy a b with h | h | h
  · rw [if_pos h, if_pos (Nat.le_of_lt h)]
  · subst h
    simp
  · rw [if_neg (by omega), if_pos h, if_neg (by omega)]

theorem numba_cellAt (ws : List Word) {a b : Nat} (ha : a < ws.length) (hb : b < ws.length) :
    cellAt (compute_cross_hints_matrix_numba ws) a b =
      if a ≤ b then cell_scan ws a b else cell_scan ws b a := by
  unfold compute_cross_hints_matrix_numba
  rw [pairLoop_cellAt _ (isGrid_zeros _ _) ha hb]
  unfold pairTarget
  rcases Nat.lt_trichotomy a b with h | h | h
  · rw [if_pos h, if_pos (Nat.le_of_lt h)]
  · subst h
    simp
  · rw [if_neg (by omega), if_pos h, if_neg (by omega)]

theorem numba_parallel_cellAt (ws : List Word) {a b : Nat} (ha : a < ws.length)
    (hb : b < ws.length) :
    cellAt (compute_cross_hints_matrix_numba_parallel ws) a b =
      if a ≤ b then cell_scan ws a b else cell_scan ws b a := by
  unfold compute_cross_hints_matrix_numba_parallel
  rw [pairLoop_cellAt _ (isGrid_zeros _ _) ha hb]
  unfold pairTarget
  rcases Nat.lt_trichotomy a b with h | h | h
  · rw [if_pos h, if_pos (Nat.le_of_lt h)]
  · subst h
    simp
  · rw [if_neg (by omega), if_pos h, if_neg (by omega)]

theorem pos_broadcast_cellAt (ws : List Word) {a b : Nat} (ha : a < ws.length)
    (hb : b < ws.length) :
    cellAt (pos_broadcast ws) a b =
      padTo (2 * wordLen ws) (posPart (ws.getD a []) (ws.getD b [])) := by
  unfold cellAt pos_broadcast
  simp [List.getD_eq_getElem?_getD, List.getElem?_range, ha, hb]

theorem opt_cellAt {ws : List Word} (hp : PoolOk ws) {a b : Nat} (ha : a < ws.length)
    (hb : b < ws.length) :
    cellAt (compute_cross_hints_matrix_optimized ws) a b =
      if a ≤ b then cell_naive ws a b else cell_naive ws b a := by
  have hL : ∀ x y, x < ws.length → y < ws.length →
      sliceSet (padTo (2 * wordLen ws) (posPart (ws.getD a []) (ws.getD b []))) (wordLen ws)
        ((letters_sorted_common (ws.getD x []) (ws.getD y [])).take (wordLen ws)) =
      posPart (ws.getD a []) (ws.getD b []) ++
        padTo (wordLen ws) (letters_sorted_common (ws.getD x []) (ws.getD y [])) := by
    intro x y hx hy
    rw [sliceSet_shape (posPart_length_pool hp ha hb) (List.length_take_le _ _)]
    rw [letters_sorted_take _ _ (Nat.le_of_eq (word_length hp hx))]
  unfold compute_cross_hints_matrix_optimized
  rw [pairLoop_cellAt _ (isGrid_pos_broadcast ws) ha hb]
  unfold pairTarget
  rcases Nat.lt_trichotomy a b with h | h | h
  · rw [if_pos h, if_pos (Nat.le_of_lt h)]
    rw [pos_broadcast_cellAt ws ha hb]
    beta_reduce
    rw [hL a b ha hb]
    rfl
  · subst h
    simp only [Nat.lt_irrefl, if_false, Nat.le_refl, if_true]
    rw [pos_broadcast_cellAt ws ha ha]
    rw [sliceSet_idem (posPart_length_pool hp ha ha) (List.length_take_le _ _), hL a a ha ha]
    rfl
  · rw [if_neg (by omega), if_pos h, if_neg (by omega)]
    rw [pos_broadcast_cellAt ws ha hb]
    beta_reduce
    rw [hL b a hb ha]
    unfold cell_naive
    rw [posPart_comm, letters_sorted_comm]

theorem fast_cellAt {ws : List Word} (hp : PoolOk ws) {a b : Nat} (ha : a < ws.length)
    (hb : b < ws.length) :
    cellAt (compute_cross_hints_matrix_fast ws) a b =
      if a ≤ b then cell_naive ws a b else cell_naive ws b a := by
  have heq : compute_cross_hints_matrix_fast ws = compute_cross_hints_matrix_optimized ws := rfl
  rw [heq]
  exact opt_cellAt hp ha hb

end WordleFreq

namespace WordleFreq

theorem mem_firstDedupAux {x : Nat} :
    ∀ (l seen : List Nat), x ∈ firstDedupAux seen l ↔ x ∈ l ∧ x ∉ seen := by
  intro l
  induction l with
  | nil => intro seen; simp [firstDedupAux]
  | cons c rest ih =>
    intro seen
    unfold firstDedupAux
    by_cases hc : c ∈ seen
    · rw [if_pos hc, ih seen]
      constructor
      · rintro ⟨hx, hs⟩
        exact ⟨List.mem_cons_of_mem _ hx, hs⟩
      · rintro ⟨hx, hs⟩
        rcases List.mem_cons.mp hx with rfl | hx
        · exact absurd hc hs
        · exact ⟨hx, hs⟩
    · rw [if_neg hc]
      constructor
      · intro hx
        rcases List.mem_cons.mp hx with rfl | hx
        · exact ⟨List.mem_cons_self _ _, hc⟩
        · obtain ⟨h1, h2⟩ := (ih (c :: seen)).mp hx
          exact ⟨List.mem_cons_of_mem _ h1, fun hs => h2 (List.mem_cons_of_mem _ hs)⟩
      · rintro ⟨hx, hs⟩
        rcases List.mem_cons.mp hx with rfl | hx
        · exact List.mem_cons_self _ _
        · by_cases hxc : x = c
          · subst hxc; exact List.mem_cons_self _ _
          · exact List.mem_cons_of_mem _ ((ih (c :: seen)).mpr
              ⟨hx, fun hm => (List.mem_cons.mp hm).elim hxc hs⟩)

theorem mem_firstDedup {x : Nat} {l : List Nat} : x ∈ firstDedup l ↔ x ∈ l := by
  unfold firstDedup
  rw [mem_firstDedupAux]
  simp

theorem length_firstDedupAux : ∀ (l seen : List Nat), (firstDedupAux seen l).length ≤ l.length := by
  intro l
  induction l with
  | nil => intro seen; simp [firstDedupAux]
  | cons c rest ih =>
    intro seen
    unfold firstDedupAux
    by_cases hc : c ∈ seen
    · rw [if_pos hc]
      exact Nat.le_succ_of_le (ih seen)
    · rw [if_neg hc]
      simpa using ih (c :: seen)

theorem mem_letters_sorted {x : Nat} {a b : Word} :
    x ∈ letters_sorted_common a b ↔ x ∈ a ∧ x ∈ b := by
  unfold letters_sorted_common
  rw [Finset.mem_sort, Finset.mem_inter, List.mem_toFinset, List.mem_toFinset]

theorem mem_letters_scan {x : Nat} {a b : Word} :
    x ∈ letters_scan_common a b ↔ x ∈ a ∧ x ∈ b := by
  unfold letters_scan_common
  rw [List.mem_filter, mem_firstDedup]
  simp [And.comm]

theorem length_letters_scan (a b : Word) :
    (letters_scan_common a b).length ≤ b.length :=
  le_trans (List.length_filter_le _ _) (length_firstDedupAux b [])

theorem pairLoop_isGrid {N : Nat} (h : List Nat → Nat → Nat → List Nat) {init : HintMat}
    (hg : IsGrid N init) : IsGrid N (pairLoop N (pairWrite h) init) := by
  have hbase : LoopInv N h init 0 0 init := by
    refine ⟨hg, ?_⟩
    intro a' b' _ _
    rw [if_neg (processed_start a' b')]
  have hfin := loopInv_outer N 0 init (Nat.zero_add N) hbase
  unfold pairLoop
  rw [List.range_eq_range']
  exact hfin.1

theorem built_isGrid {ws : List Word} {mat : HintMat} (hb : BuiltFrom ws mat) :
    IsGrid ws.length mat := by
  rcases hb with rfl | rfl | rfl | rfl | rfl
  · exact pairLoop_isGrid _ (isGrid_zeros _ _)
  · exact pairLoop_isGrid _ (isGrid_pos_broadcast ws)
  · exact pairLoop_isGrid _ (isGrid_pos_broadcast ws)
  · exact pairLoop_isGrid _ (isGrid_zeros _ _)
  · exact pairLoop_isGrid _ (isGrid_zeros _ _)

theorem built_cellAt {ws : List Word} {mat : HintMat} (hp : PoolOk ws)
    (hb : BuiltFrom ws mat) {i k : Nat} (hi : i < ws.length) (hk : k < ws.length) :
    ∃ c : List Nat,
      cellAt mat i k = posPart (ws.getD i []) (ws.getD k []) ++ padTo (wordLen ws) c ∧
      c.length ≤ wordLen ws ∧
      (∀ x ∈ c, x ∈ ws.getD i [] ∧ x ∈ ws.getD k []) ∧
      (∀ x, x ∈ ws.getD i [] → x ∈ ws.getD k [] → x ∈ c) := by
  have hsorted : ∀ (u v : Nat), u < ws.length → v < ws.length →
      (letters_sorted_common (ws.getD u []) (ws.getD v [])).length ≤ wordLen ws :=
    fun u v hu _ => le_trans (length_letters_sorted _ _) (Nat.le_of_eq (word_length hp hu))
  have hscan : ∀ (u v : Nat), u < ws.length → v < ws.length →
      (letters_scan_common (ws.getD u []) (ws.getD v [])).length ≤ wordLen ws :=
    fun u v _ hv => le_trans (length_letters_scan _ _) (Nat.le_of_eq (word_length hp hv))
  rcases hb with rfl | rfl | rfl | rfl | rfl
  · rw [naive_cellAt ws hi hk]
    by_cases h : i ≤ k
    · rw [if_pos h]
      exact ⟨_, rfl, hsorted i k hi hk,
        fun x hx => mem_letters_sorted.mp hx,
        fun x h1 h2 => mem_letters_sorted.mpr ⟨h1, h2⟩⟩
    · rw [if_neg h]
      unfold cell_naive
      rw [posPart_comm]
      exact ⟨_, rfl, hsorted k i hk hi,
        fun x hx => (mem_letters_sorted.mp hx).symm,
        fun x h1 h2 => mem_letters_sorted.mpr ⟨h2, h1⟩⟩
  · rw [opt_cellAt hp hi hk]
    by_cases h : i ≤ k
    · rw [if_pos h]
      exact ⟨_, rfl, hsorted i k hi hk,
        fun x hx => mem_letters_sorted.mp hx,
        fun x h1 h2 => mem_letters_sorted.mpr ⟨h1, h2⟩⟩
    · rw [if_neg h]
      unfold cell_naive
      rw [posPart_comm]
      exact ⟨_, rfl, hsorted k i hk hi,
        fun x hx => (mem_letters_sorted.mp hx).symm,
        fun x h1 h2 => mem_letters_sorted.mpr ⟨h2, h1⟩⟩
  · rw [fast_cellAt hp hi hk]
    by_cases h : i ≤ k
    · rw [if_pos h]
      exact ⟨_, rfl, hsorted i k hi hk,
        fun x hx => mem_letters_sorted.mp hx,
        fun x h1 h2 => mem_letters_sorted.mpr ⟨h1, h2⟩⟩
    · rw [if_neg h]
      unfold cell_naive
      rw [posPart_comm]
      exact ⟨_, rfl, hsorted k i hk hi,
        fun x hx => (mem_letters_sorted.mp hx).symm,
        fun x h1 h2 => mem_letters_sorted.mpr ⟨h2, h1⟩⟩
  · rw [numba_cellAt ws hi hk]
    by_cases h : i ≤ k
    · rw [if_pos h]
      exact ⟨_, rfl, hscan i k hi hk,
        fun x hx => mem_letters_scan.mp hx,
        fun x h1 h2 => mem_letters_scan.mpr ⟨h1, h2⟩⟩
    · rw [if_neg h]
      unfold cell_scan
      rw [posPart_comm]
      exact ⟨_, rfl, hscan k i hk hi,
        fun x hx => (mem_letters_scan.mp hx).symm,
        fun x h1 h2 => mem_letters_scan.mpr ⟨h2, h1⟩⟩
  · rw [numba_parallel_cellAt ws hi hk]
    by_cases h : i ≤ k
    · rw [if_pos h]
      exact ⟨_, rfl, hscan i k hi hk,
        fun x hx => mem_letters_scan.mp hx,
        fun x h1 h2 => mem_letters_scan.mpr ⟨h1, h2⟩⟩
    · rw [if_neg h]
      unfold cell_scan
      rw [posPart_comm]
      exact ⟨_, rfl, hscan k i hk hi,
        fun x hx => (mem_letters_scan.mp hx).symm,
        fun x h1 h2 => mem_letters_scan.mpr ⟨h2, h1⟩⟩

end WordleFreq

namespace WordleFreq

theorem pool_letter_range {ws : List Word} (hp : PoolOk ws) {w : Word} (hw : w ∈ ws)
    {x : Nat} (hx : x ∈ w) : 65 ≤ x ∧ x ≤ 90 :=
  (hp w hw).2 x hx

theorem filter_padTo_nonzero {L : Nat} {c : List Nat} (h0 : ∀ x ∈ c, x ≠ 0) :
    (padTo L c).filter (fun x => decide (x ≠ 0)) = c := by
  unfold padTo
  rw [List.filter_append]
  rw [List.filter_eq_self.mpr (fun a ha => by simpa using h0 a ha)]
  have hz : (List.replicate (L - c.length) (0 : Nat)).filter (fun x => decide (x ≠ 0)) = [] := by
    rw [List.filter_eq_nil_iff]
    intro a ha
    rw [List.eq_of_mem_replicate ha]
    simp
  rw [hz, List.append_nil]

theorem built_cell_facts {ws : List Word} {mat : HintMat} (hp : PoolOk ws)
    (hb : BuiltFrom ws mat) {i k : Nat} (hi : i < ws.length) (hk : k < ws.length) :
    ∃ c : List Nat,
      (cellAt mat i k).take (wordLen ws) = posPart (ws.getD i []) (ws.getD k []) ∧
      (cellAt mat i k).length = 2 * wordLen ws ∧
      (cellAt mat i k).drop (wordLen ws) = padTo (wordLen ws) c ∧
      ((cellAt mat i k).drop (wordLen ws)).filter (fun x => decide (x ≠ 0)) = c ∧
      c.length ≤ wordLen ws ∧
      c.toFinset = (ws.getD i []).toFinset ∩ (ws.getD k []).toFinset ∧
      (∀ x ∈ c, 65 ≤ x ∧ x ≤ 90) := by
  obtain ⟨c, hc, hlen, hmem, hmem'⟩ := built_cellAt hp hb hi hk
  have hppl := posPart_length_pool hp hi hk
  have hrange : ∀ x ∈ c, 65 ≤ x ∧ x ≤ 90 :=
    fun x hx => pool_letter_range hp (word_mem hi) (hmem x hx).1
  have hdrop : (cellAt mat i k).drop (wordLen ws) = padTo (wordLen ws) c := by
    rw [hc, List.drop_left' hppl]
  refine ⟨c, ?_, ?_, hdrop, ?_, hlen, ?_, hrange⟩
  · rw [hc, List.take_left' hppl]
  · rw [hc]
    simp only [List.length_append, padTo, List.length_replicate, hppl]
    omega
  · rw [hdrop]
    exact filter_padTo_nonzero (fun x hx => by have := (hrange x hx).1; omega)
  · ext x
    rw [List.mem_toFinset, Finset.mem_inter, List.mem_toFinset, List.mem_toFinset]
    exact ⟨fun hx => hmem x hx, fun hx => hmem' x hx.1 hx.2⟩

theorem built_MatOk {ws : List Word} {mat : HintMat} (hp : PoolOk ws)
    (hb : BuiltFrom ws mat) : MatOk ws.length (wordLen ws) mat := by
  have hg := built_isGrid hb
  refine ⟨hg.1, ?_⟩
  intro row hrow
  refine ⟨hg.2 row hrow, ?_⟩
  intro cell hcell
  obtain ⟨i, hiN, hrowi⟩ := List.getElem_of_mem hrow
  obtain ⟨k, hkN, hcellk⟩ := List.getElem_of_mem hcell
  have hiN' : i < ws.length := by rw [← hg.1]; exact hiN
  have hkN' : k < ws.length := by
    have := hg.2 row hrow
    omega
  have hcc : cellAt mat i k = cell := by
    unfold cellAt
    rw [getD_eq_getElem_of_lt mat [] hiN, hrowi, getD_eq_getElem_of_lt row [] hkN, hcellk]
  obtain ⟨c, _, hlen2, hdrop, _, _, _, hrange⟩ := built_cell_facts hp hb hiN' hkN'
  rw [hcc] at hlen2 hdrop
  refine ⟨hlen2, ?_⟩
  intro x hx
  rw [hdrop] at hx
  unfold padTo at hx
  rcases List.mem_append.mp hx with hx | hx
  · exact Or.inr (hrange x hx)
  · exact Or.inl (List.eq_of_mem_replicate hx)

end WordleFreq

namespace WordleFreq

theorem testBit_or_foldl {α : Type} (f : α → Nat) :
    ∀ (l : List α) (m0 : Nat) (b : Nat),
      ((l.foldl (fun m c => m ||| f c) m0).testBit b) =
        (m0.testBit b || l.any (fun c => (f c).testBit b)) := by
  intro l
  induction l with
  | nil => intro m0 b; simp
  | cons c rest ih =>
    intro m0 b
    rw [List.foldl_cons, ih]
    simp [Nat.testBit_or, Bool.or_assoc]

theorem testBit_letter_pow {c b : Nat} : (2 ^ (c - 65)).testBit b = decide (c - 65 = b) :=
  Nat.testBit_two_pow

theorem presence_mask_testBit {w : Word} {b : Nat} :
    (presence_mask w).testBit b = w.any (fun c => decide (c - 65 = b)) := by
  unfold presence_mask
  rw [testBit_or_foldl (fun c => 2 ^ (c - 65)) w 0 b]
  simp only [Nat.zero_testBit, Bool.false_or]
  congr 1
  funext c
  rw [testBit_letter_pow]

theorem slots_mask_testBit {L : Nat} {cell : List Nat} {b : Nat} :
    (slots_mask L cell).testBit b =
      (((cell.drop L).take L).filter (fun c => decide (c ≠ 0))).any
        (fun c => decide (c - 65 = b)) := by
  unfold slots_mask
  rw [testBit_or_foldl (fun c => 2 ^ (c - 65)) _ 0 b]
  simp only [Nat.zero_testBit, Bool.false_or]
  congr 1
  funext c
  rw [testBit_letter_pow]

theorem and_eq_left_iff_testBit {M P : Nat} :
    M &&& P = M ↔ ∀ b, M.testBit b = true → P.testBit b = true := by
  constructor
  · intro h b hb
    have := congrArg (fun x => x.testBit b) h
    simp only [Nat.testBit_and] at this
    rw [hb] at this
    simpa using this.symm
  · intro h
    apply Nat.eq_of_testBit_eq
    intro b
    rw [Nat.testBit_and]
    by_cases hb : M.testBit b = true
    · rw [hb, h b hb]
      rfl
    · rw [Bool.not_eq_true] at hb
      rw [hb]
      rfl

theorem mem_foldl_union {α : Type} (g : α → Finset Nat) :
    ∀ (l : List α) (u0 : Finset Nat) (x : Nat),
      (x ∈ l.foldl (fun u c => u ∪ g c) u0) ↔ x ∈ u0 ∨ ∃ c ∈ l, x ∈ g c := by
  intro l
  induction l with
  | nil => intro u0 x; simp
  | cons c rest ih =>
    intro u0 x
    rw [List.foldl_cons, ih]
    simp only [Finset.mem_union, List.mem_cons]
    constructor
    · rintro ((h | h) | ⟨d, hd, hx⟩)
      · exact Or.inl h
      · exact Or.inr ⟨c, Or.inl rfl, h⟩
      · exact Or.inr ⟨d, Or.inr hd, hx⟩
    · rintro (h | ⟨d, rfl | hd, hx⟩)
      · exact Or.inl (Or.inl h)
      · exact Or.inl (Or.inr hx)
      · exact Or.inr ⟨d, hd, hx⟩

theorem subset_foldl_union {α : Type} (g : α → Finset Nat) (l : List α) (u0 : Finset Nat) :
    u0 ⊆ l.foldl (fun u c => u ∪ g c) u0 := by
  intro x hx
  rw [mem_foldl_union]
  exact Or.inl hx

end WordleFreq

namespace WordleFreq

theorem npGet_in_range {α : Type} {l : List α} {i : Int} (h0 : 0 ≤ i)
    (hi : i < (l.length : Int)) :
    ∃ (h : i.toNat < l.length), npGet l i = some (l.get ⟨i.toNat, h⟩) := by
  have h : i.toNat < l.length := by omega
  refine ⟨h, ?_⟩
  unfold npGet
  rw [if_pos h0, List.getElem?_eq_getElem h]
  rfl

theorem matOk_cell {N L : Nat} {mat : HintMat} (hm : MatOk N L mat) {i : Int}
    (h0 : 0 ≤ i) (hi : i < (N : Int)) {k : Nat} (hk : k < N) :
    ∃ row cell, npGet mat i = some row ∧ npGet row (k : Int) = some cell ∧
      cell.length = 2 * L ∧ (∀ c ∈ cell.drop L, c = 0 ∨ (65 ≤ c ∧ c ≤ 90)) ∧
      resolve_cell mat k i = cell := by
  have hil : i < (mat.length : Int) := by rw [hm.1]; exact hi
  obtain ⟨hlt, hrow⟩ := npGet_in_range h0 hil
  rw [List.get_eq_getElem] at hrow
  have hrmem : mat[i.toNat] ∈ mat := List.getElem_mem hlt
  have hrlen : mat[i.toNat].length = N := (hm.2 _ hrmem).1
  have hkl : (k : Int) < (mat[i.toNat].length : Int) := by rw [hrlen]; exact_mod_cast hk
  obtain ⟨hklt, hcell⟩ := npGet_in_range (by exact_mod_cast Nat.zero_le k) hkl
  rw [List.get_eq_getElem] at hcell
  have hcmem : mat[i.toNat][(k : Int).toNat] ∈ mat[i.toNat] := List.getElem_mem hklt
  obtain ⟨hclen, hcvals⟩ := (hm.2 _ hrmem).2 _ hcmem
  refine ⟨_, _, hrow, hcell, hclen, hcvals, ?_⟩
  unfold resolve_cell
  rw [hrow]
  simp only [hcell, Option.getD_some]

theorem matOk_kernel_access {N L : Nat} {mat : HintMat} (hm : MatOk N L mat) {i : Int}
    (h0 : 0 ≤ i) (hi : i < (N : Int)) {k : Nat} (hk : k < N) :
    kernel_access L mat k i := by
  obtain ⟨row, cell, hrow, hcell, hclen, _, _⟩ := matOk_cell hm h0 hi hk
  exact ⟨row, hrow, cell, hcell, Nat.le_of_eq hclen.symm⟩

theorem kernel_access_ref {L : Nat} {mat : HintMat} {k : Nat} {i : Int}
    (h : kernel_access L mat k i) : ref_access L mat k i := by
  obtain ⟨row, hrow, cell, hcell, hlen⟩ := h
  exact ⟨row, hrow, cell, hcell, by omega⟩

theorem merge_hints_ok (L : Nat) (mat : HintMat) (k : Nat) :
    ∀ (sel : List Int) (p0 : List Nat) (u0 : Finset Nat),
      (∀ i ∈ sel, ref_access L mat k i) →
      u0.card ≤ L →
      ((sel.map (resolve_cell mat k)).foldl
        (fun u c => u ∪ ((c.drop L).filter (fun x => decide (x ≠ 0))).toFinset) u0).card ≤ L →
      merge_hints L mat k (p0, u0) sel =
        .ok ((sel.map (resolve_cell mat k)).foldl (fun p c => List.zipWith max p (c.take L)) p0,
             (sel.map (resolve_cell mat k)).foldl
               (fun u c => u ∪ ((c.drop L).filter (fun x => decide (x ≠ 0))).toFinset) u0)
  | [], p0, u0, _, _, _ => rfl
  | i :: rest, p0, u0, hacc, hu0, hfin => by
    obtain ⟨row, hrow, cell, hcell, hlen⟩ := hacc i (List.mem_cons_self _ _)
    have hres : resolve_cell mat k i = cell := by
      unfold resolve_cell
      rw [hrow]
      simp only [hcell, Option.getD_some]
    have htake : (cell.take L).length = L := by rw [List.length_take]; omega
    rw [List.map_cons, List.foldl_cons, List.foldl_cons, hres]
    have hu1 : (u0 ∪ ((cell.drop L).filter (fun x => decide (x ≠ 0))).toFinset).card ≤ L := by
      rw [List.map_cons, List.foldl_cons, hres] at hfin
      exact le_trans (Finset.card_le_card (subset_foldl_union _ _ _)) hfin
    show (match ref_merge_step L mat k (p0, u0) i with
      | .error e => Except.error e
      | .ok st' => merge_hints L mat k st' rest) = _
    unfold ref_merge_step
    simp only [hrow, hcell]
    rw [if_pos htake, if_neg (Nat.not_lt.mpr hu1)]
    exact merge_hints_ok L mat k rest _ _
      (fun j hj => hacc j (List.mem_cons_of_mem _ hj)) hu1
      (by rw [List.map_cons, List.foldl_cons, hres] at hfin; exact hfin)

theorem merge_hints_ok_elim (L : Nat) (mat : HintMat) (k : Nat) :
    ∀ (sel : List Int) (p0 : List Nat) (u0 : Finset Nat) (st' : List Nat × Finset Nat),
      merge_hints L mat k (p0, u0) sel = .ok st' →
      (∀ i ∈ sel, ref_access L mat k i) ∧
      st' = ((sel.map (resolve_cell mat k)).foldl (fun p c => List.zipWith max p (c.take L)) p0,
             (sel.map (resolve_cell mat k)).foldl
               (fun u c => u ∪ ((c.drop L).filter (fun x => decide (x ≠ 0))).toFinset) u0) ∧
      (sel = [] ∨ st'.2.card ≤ L)
  | [], p0, u0, st', h => by
    refine ⟨by simp, ?_, Or.inl rfl⟩
    unfold merge_hints at h
    exact (Except.ok.inj h).symm
  | i :: rest, p0, u0, st', h => by
    have hstep : ∀ e, ref_merge_step L mat k (p0, u0) i = .error e →
        merge_hints L mat k (p0, u0) (i :: rest) = .error e := by
      intro e he
      show (match ref_merge_step L mat k (p0, u0) i with
        | .error e => Except.error e
        | .ok st' => merge_hints L mat k st' rest) = Except.error e
      rw [he]
    cases hrow : npGet mat i with
    | none =>
      exfalso
      have : merge_hints L mat k (p0, u0) (i :: rest) = .error .indexError := by
        apply hstep
        unfold ref_merge_step
        simp only [hrow]
      rw [this] at h
      exact absurd h (by simp)
    | some row =>
      cases hcell : npGet row (k : Int) with
      | none =>
        exfalso
        have : merge_hints L mat k (p0, u0) (i :: rest) = .error .indexError := by
          apply hstep
          unfold ref_merge_step
          simp only [hrow, hcell]
        rw [this] at h
        exact absurd h (by simp)
      | some cell =>
        have hres : resolve_cell mat k i = cell := by
          unfold resolve_cell
          rw [hrow]
          simp only [hcell, Option.getD_some]
        by_cases htake : (cell.take L).length = L
        · by_cases hcard :
            L < (u0 ∪ ((cell.drop L).filter (fun x => decide (x ≠ 0))).toFinset).card
          · exfalso
            have : merge_hints L mat k (p0, u0) (i :: rest) = .error .broadcastError := by
              apply hstep
              unfold ref_merge_step
              simp only [hrow, hcell]
              rw [if_pos htake, if_pos hcard]
            rw [this] at h
            exact absurd h (by simp)
          · have hrec : merge_hints L mat k
                (List.zipWith max p0 (cell.take L),
                 u0 ∪ ((cell.drop L).filter (fun x => decide (x ≠ 0))).toFinset) rest =
                .ok st' := by
              have hh : merge_hints L mat k (p0, u0) (i :: rest) =
                  merge_hints L mat k
                    (List.zipWith max p0 (cell.take L),
                     u0 ∪ ((cell.drop L).filter (fun x => decide (x ≠ 0))).toFinset) rest := by
                show (match ref_merge_step L mat k (p0, u0) i with
                  | .error e => Except.error e
                  | .ok st' => merge_hints L mat k st' rest) = _
                unfold ref_merge_step
                simp only [hrow, hcell]
                rw [if_pos htake, if_neg hcard]
              rw [← hh]
              exact h
            obtain ⟨ha, hb, hc⟩ := merge_hints_ok_elim L mat k rest _ _ _ hrec
            refine ⟨?_, ?_, ?_⟩
            · intro j hj
              rcases List.mem_cons.mp hj with rfl | hj
              · exact ⟨row, hrow, cell, hcell, by rw [List.length_take] at htake; omega⟩
              · exact ha j hj
            · rw [hb, List.map_cons, List.foldl_cons, List.foldl_cons, hres]
            · refine Or.inr ?_
              rcases hc with rfl | hc
              · rw [hb]
                simpa using Nat.le_of_not_lt hcard
              · exact hc
        · exfalso
          have : merge_hints L mat k (p0, u0) (i :: rest) = .error .broadcastError := by
            apply hstep
            unfold ref_merge_step
            simp only [hrow, hcell]
            rw [if_neg htake]
          rw [this] at h
          exact absurd h (by simp)

theorem numba_merge_ok (L : Nat) (mat : HintMat) (k : Nat) :
    ∀ (sel : List Int) (p0 : List Nat) (m0 : Nat),
      (∀ i ∈ sel, kernel_access L mat k i) →
      numba_merge L mat k (p0, m0) sel =
        .ok ((sel.map (resolve_cell mat k)).foldl (fun p c => List.zipWith max p (c.take L)) p0,
             (sel.map (resolve_cell mat k)).foldl (fun m c => m ||| slots_mask L c) m0)
  | [], p0, m0, _ => rfl
  | i :: rest, p0, m0, hacc => by
    obtain ⟨row, hrow, cell, hcell, hlen⟩ := hacc i (List.mem_cons_self _ _)
    have hres : resolve_cell mat k i = cell := by
      unfold resolve_cell
      rw [hrow]
      simp only [hcell, Option.getD_some]
    rw [List.map_cons, List.foldl_cons, List.foldl_cons, hres]
    show (match numba_merge_step L mat k (p0, m0) i with
      | .error e => Except.error e
      | .ok st' => numba_merge L mat k st' rest) = _
    unfold numba_merge_step
    simp only [hrow, hcell]
    rw [if_neg (by omega), if_neg (by omega)]
    exact numba_merge_ok L mat k rest _ _ (fun j hj => hacc j (List.mem_cons_of_mem _ hj))

theorem merge_hints_err (L : Nat) (mat : HintMat) (k : Nat) (BIG : Finset Nat)
    (hBIG : BIG.card ≤ L) :
    ∀ (sel : List Int) (p0 : List Nat) (u0 : Finset Nat), u0 ⊆ BIG →
      (∃ i ∈ sel, npGet mat i = none) →
      (∀ i ∈ sel, npGet mat i = none ∨ (ref_access L mat k i ∧
        ((resolve_cell mat k i).drop L |>.filter (fun x => decide (x ≠ 0))).toFinset ⊆ BIG)) →
      merge_hints L mat k (p0, u0) sel = .error .indexError
  | [], _, _, _, hbad, _ => by simp at hbad
  | i :: rest, p0, u0, hsub, hbad, hall => by
    rcases hall i (List.mem_cons_self _ _) with hnone | ⟨⟨row, hrow, cell, hcell, hlen⟩, hcs⟩
    · show (match ref_merge_step L mat k (p0, u0) i with
        | .error e => Except.error e
        | .ok st' => merge_hints L mat k st' rest) = Except.error Err.indexError
      unfold ref_merge_step
      simp only [hnone]
    · have hres : resolve_cell mat k i = cell := by
        unfold resolve_cell
        rw [hrow]
        simp only [hcell, Option.getD_some]
      have htake : (cell.take L).length = L := by rw [List.length_take]; omega
      have hu1sub : u0 ∪ ((cell.drop L).filter (fun x => decide (x ≠ 0))).toFinset ⊆ BIG := by
        rw [hres] at hcs
        exact Finset.union_subset hsub hcs
      have hu1 : (u0 ∪ ((cell.drop L).filter (fun x => decide (x ≠ 0))).toFinset).card ≤ L :=
        le_trans (Finset.card_le_card hu1sub) hBIG
      have hbad' : ∃ j ∈ rest, npGet mat j = none := by
        rcases hbad with ⟨j, hj, hjn⟩
        rcases List.mem_cons.mp hj with rfl | hj
        · rw [hrow] at hjn; exact absurd hjn (by simp)
        · exact ⟨j, hj, hjn⟩
      show (match ref_merge_step L mat k (p0, u0) i with
        | .error e => Except.error e
        | .ok st' => merge_hints L mat k st' rest) = Except.error Err.indexError
      unfold ref_merge_step
      simp only [hrow, hcell]
      rw [if_pos htake, if_neg (Nat.not_lt.mpr hu1)]
      exact merge_hints_err L mat k BIG hBIG rest _ _ hu1sub hbad'
        (fun j hj => hall j (List.mem_cons_of_mem _ hj))

theorem numba_merge_err (L : Nat) (mat : HintMat) (k : Nat) :
    ∀ (sel : List Int) (p0 : List Nat) (m0 : Nat),
      (∃ i ∈ sel, npGet mat i = none) →
      (∀ i ∈ sel, npGet mat i = none ∨ kernel_access L mat k i) →
      numba_merge L mat k (p0, m0) sel = .error .indexError
  | [], _, _, hbad, _ => by simp at hbad
  | i :: rest, p0, m0, hbad, hall => by
    rcases hall i (List.mem_cons_self _ _) with hnone | ⟨row, hrow, cell, hcell, hlen⟩
    · show (match numba_merge_step L mat k (p0, m0) i with
        | .error e => Except.error e
        | .ok st' => numba_merge L mat k st' rest) = Except.error Err.indexError
      unfold numba_merge_step
      simp only [hnone]
    · have hbad' : ∃ j ∈ rest, npGet mat j = none := by
        rcases hbad with ⟨j, hj, hjn⟩
        rcases List.mem_cons.mp hj with rfl | hj
        · rw [hrow] at hjn; exact absurd hjn (by simp)
        · exact ⟨j, hj, hjn⟩
      show (match numba_merge_step L mat k (p0, m0) i with
        | .error e => Except.error e
        | .ok st' => numba_merge L mat k st' rest) = Except.error Err.indexError
      unfold numba_merge_step
      simp only [hrow, hcell]
      rw [if_neg (by omega), if_neg (by omega)]
      exact numba_merge_err L mat k rest _ _ hbad'
        (fun j hj => hall j (List.mem_cons_of_mem _ hj))

theorem np_rows_none (mat : HintMat) :
    ∀ (sel : List Int), (∃ i ∈ sel, npGet mat i = none) → np_rows mat sel = none
  | [], hbad => by simp at hbad
  | i :: rest, hbad => by
    unfold np_rows
    cases hrow : npGet mat i with
    | none => rfl
    | some row =>
      have hbad' : ∃ j ∈ rest, npGet mat j = none := by
        rcases hbad with ⟨j, hj, hjn⟩
        rcases List.mem_cons.mp hj with rfl | hj
        · rw [hrow] at hjn; exact absurd hjn (by simp)
        · exact ⟨j, hj, hjn⟩
      rw [np_rows_none mat rest hbad']

theorem np_rows_some (mat : HintMat) :
    ∀ (sel : List Int), (∀ i ∈ sel, ∃ row, npGet mat i = some row) →
      np_rows mat sel = some (sel.map (fun i => (npGet mat i).getD []))
  | [], _ => rfl
  | i :: rest, hall => by
    obtain ⟨row, hrow⟩ := hall i (List.mem_cons_self _ _)
    unfold np_rows
    rw [hrow, np_rows_some mat rest (fun j hj => hall j (List.mem_cons_of_mem _ hj))]
    simp only [List.map_cons, hrow, Option.getD_some]

theorem np_cells_some (k : Nat) :
    ∀ (rows : List (List (List Nat))),
      (∀ row ∈ rows, ∃ cell, npGet row (k : Int) = some cell) →
      np_cells k rows = some (rows.map (fun row => (npGet row (k : Int)).getD []))
  | [], _ => rfl
  | row :: rest, hall => by
    obtain ⟨cell, hcell⟩ := hall row (List.mem_cons_self _ _)
    unfold np_cells
    rw [hcell, np_cells_some k rest (fun r hr => hall r (List.mem_cons_of_mem _ hr))]
    simp only [List.map_cons, hcell, Option.getD_some]

theorem except_list_map (f : Nat → Except Err Nat) (g : Nat → Nat) :
    ∀ (ks : List Nat), (∀ k ∈ ks, f k = .ok (g k)) →
      except_list f ks = .ok (ks.map g)
  | [], _ => rfl
  | k :: rest, hall => by
    unfold except_list
    rw [hall k (List.mem_cons_self _ _),
      except_list_map f g rest (fun j hj => hall j (List.mem_cons_of_mem _ hj))]
    rfl

theorem except_list_checked_err (f : Nat → Except Err Nat) (c : Nat → Nat) :
    ∀ (ks : List Nat),
      (∀ k ∈ ks, f k = (if c k = 0 then .error .invariantViolation else .ok (c k))) →
      (∃ k ∈ ks, c k = 0) → except_list f ks = .error .invariantViolation
  | [], _, hbad => by simp at hbad
  | k :: rest, hall, hbad => by
    unfold except_list
    by_cases hk : c k = 0
    · rw [hall k (List.mem_cons_self _ _), if_pos hk]
    · rw [hall k (List.mem_cons_self _ _), if_neg hk]
      have hbad' : ∃ j ∈ rest, c j = 0 := by
        rcases hbad with ⟨j, hj, hjz⟩
        rcases List.mem_cons.mp hj with rfl | hj
        · exact absurd hjz hk
        · exact ⟨j, hj, hjz⟩
      rw [except_list_checked_err f c rest
        (fun j hj => hall j (List.mem_cons_of_mem _ hj)) hbad']

theorem except_list_err_head (f : Nat → Except Err Nat) {k : Nat} {ks : List Nat} {e : Err}
    (h : f k = .error e) : except_list f (k :: ks) = .error e := by
  unfold except_list
  rw [h]

end WordleFreq

namespace WordleFreq

theorem int_toNat_lt {i : Int} {N : Nat} (h0 : 0 ≤ i) (hi : i < (N : Int)) : i.toNat < N := by
  omega

theorem resolve_cell_cellAt {N L : Nat} {mat : HintMat} (hm : MatOk N L mat) {i : Int}
    (h0 : 0 ≤ i) (hi : i < (N : Int)) {k : Nat} (hk : k < N) :
    resolve_cell mat k i = cellAt mat i.toNat k := by
  obtain ⟨row, cell, hrow, hcell, _, _, hres⟩ := matOk_cell hm h0 hi hk
  rw [hres]
  have hil : i.toNat < mat.length := by rw [hm.1]; exact int_toNat_lt h0 hi
  have hrv : row = mat.getD i.toNat [] := by
    obtain ⟨h', hrow'⟩ := npGet_in_range h0 (by rw [hm.1]; exact hi)
    rw [hrow'] at hrow
    rw [getD_eq_getElem_of_lt mat [] hil]
    exact (Option.some.inj hrow).symm
  have hkl : k < row.length := by
    rw [hrv, getD_eq_getElem_of_lt mat [] hil]
    rw [(hm.2 _ (List.getElem_mem hil)).1]
    exact hk
  have hcv : cell = row.getD k [] := by
    unfold npGet at hcell
    rw [if_pos (by omega : (0 : Int) ≤ (k : Int))] at hcell
    have hk' : row[k]? = some cell := hcell
    rw [List.getD_eq_getElem?_getD, hk']
    rfl
  unfold cellAt
  rw [← hrv, ← hcv]

theorem merged_letters_range {N L : Nat} {mat : HintMat} (hm : MatOk N L mat)
    {sel : List Int} {k : Nat} (hsel : ∀ i ∈ sel, 0 ≤ i ∧ i < (N : Int)) (hk : k < N) :
    ∀ x ∈ merged_letters L mat sel k, 65 ≤ x ∧ x ≤ 90 := by
  intro x hx
  unfold merged_letters at hx
  rw [mem_foldl_union] at hx
  rcases hx with hx | ⟨c, hc, hx⟩
  · exact absurd hx (Finset.not_mem_empty x)
  · obtain ⟨i, hi, rfl⟩ := List.mem_map.mp hc
    obtain ⟨h0, hiN⟩ := hsel i hi
    obtain ⟨row, cell, _, _, _, hvals, hres⟩ := matOk_cell hm h0 hiN hk
    rw [hres] at hx
    rw [List.mem_toFinset, List.mem_filter] at hx
    rcases hvals x hx.1 with h | h
    · exact absurd h (by simpa using hx.2)
    · exact h

theorem merged_mask_testBit {N L : Nat} {mat : HintMat} (hm : MatOk N L mat)
    {sel : List Int} {k : Nat} (hsel : ∀ i ∈ sel, 0 ≤ i ∧ i < (N : Int)) (hk : k < N)
    {b : Nat} :
    (((sel.map (resolve_cell mat k)).foldl (fun m c => m ||| slots_mask L c) 0).testBit b
      = true) ↔ ∃ x ∈ merged_letters L mat sel k, x - 65 = b := by
  rw [testBit_or_foldl (slots_mask L)]
  simp only [Nat.zero_testBit, Bool.false_or, List.any_eq_true]
  unfold merged_letters
  constructor
  · rintro ⟨c, hc, hb⟩
    rw [slots_mask_testBit, List.any_eq_true] at hb
    obtain ⟨x, hx, hxb⟩ := hb
    obtain ⟨i, hi, rfl⟩ := List.mem_map.mp hc
    obtain ⟨h0, hiN⟩ := hsel i hi
    obtain ⟨row, cell, _, _, hclen, _, hres⟩ := matOk_cell hm h0 hiN hk
    refine ⟨x, ?_, by simpa using hxb⟩
    rw [mem_foldl_union]
    refine Or.inr ⟨resolve_cell mat k i, List.mem_map.mpr ⟨i, hi, rfl⟩, ?_⟩
    rw [List.mem_toFinset]
    rw [hres] at hx ⊢
    have hdl : (cell.drop L).length ≤ L := by
      rw [List.length_drop, hclen]
      omega
    rw [List.take_of_length_le hdl] at hx
    exact hx
  · rintro ⟨x, hx, hxb⟩
    rw [mem_foldl_union] at hx
    rcases hx with hx | ⟨c, hc, hx⟩
    · exact absurd hx (Finset.not_mem_empty x)
    · refine ⟨c, hc, ?_⟩
      rw [slots_mask_testBit, List.any_eq_true]
      obtain ⟨i, hi, rfl⟩ := List.mem_map.mp hc
      obtain ⟨h0, hiN⟩ := hsel i hi
      obtain ⟨row, cell, _, _, hclen, _, hres⟩ := matOk_cell hm h0 hiN hk
      rw [List.mem_toFinset] at hx
      refine ⟨x, ?_, by simpa using hxb⟩
      rw [hres] at hx ⊢
      have hdl : (cell.drop L).length ≤ L := by
        rw [List.length_drop, hclen]
        omega
      rw [List.take_of_length_le hdl]
      exact hx

theorem mask_test_eq_subset {N L : Nat} {mat : HintMat} (hm : MatOk N L mat)
    {sel : List Int} {k : Nat} (hsel : ∀ i ∈ sel, 0 ≤ i ∧ i < (N : Int)) (hk : k < N)
    {w : Word} (hw : ∀ x ∈ w, 65 ≤ x ∧ x ≤ 90) :
    ((merged_mask L mat sel k &&& presence_mask w == merged_mask L mat sel k)) =
    decide (merged_letters L mat sel k ⊆ w.toFinset) := by
  unfold merged_mask
  rw [Bool.eq_iff_iff]
  rw [beq_iff_eq, decide_eq_true_eq]
  rw [and_eq_left_iff_testBit]
  constructor
  · intro h x hx
    have hx65 := merged_letters_range hm hsel hk x hx
    have hbit := (merged_mask_testBit hm hsel hk).mpr ⟨x, hx, rfl⟩
    have hpres := h _ hbit
    rw [presence_mask_testBit, List.any_eq_true] at hpres
    obtain ⟨c, hc, hcb⟩ := hpres
    have hc65 := hw c hc
    have : c = x := by
      have := of_decide_eq_true hcb
      omega
    rw [List.mem_toFinset]
    rw [← this]
    exact hc
  · intro hsub b hb
    obtain ⟨x, hx, hxb⟩ := (merged_mask_testBit hm hsel hk).mp hb
    have hxw : x ∈ w := List.mem_toFinset.mp (hsub hx)
    rw [presence_mask_testBit, List.any_eq_true]
    exact ⟨x, hxw, by simp [hxb]⟩

theorem counts_mask_eq {ws : List Word} {mat : HintMat} {sel : List Int} {k : Nat}
    (hp : PoolOk ws) (hm : MatOk ws.length (wordLen ws) mat)
    (hsel : ∀ i ∈ sel, 0 ≤ i ∧ i < (ws.length : Int)) (hk : k < ws.length) :
    mask_compatible_count ws (merged_pos (wordLen ws) mat sel k)
      (merged_mask (wordLen ws) mat sel k) = canon_count ws mat sel k := by
  unfold mask_compatible_count canon_count ref_compatible_count
  congr 1
  apply List.filter_congr
  intro w hw
  congr 1
  exact mask_test_eq_subset hm hsel hk (fun x hx => pool_letter_range hp hw hx)

end WordleFreq

namespace WordleFreq

theorem ref_secret_eq {ws : List Word} {mat : HintMat} {sel : List Int} {k : Nat}
    (hm : MatOk ws.length (wordLen ws) mat)
    (hsel : ∀ i ∈ sel, 0 ≤ i ∧ i < (ws.length : Int)) (hk : k < ws.length)
    (hcard : (merged_letters (wordLen ws) mat sel k).card ≤ wordLen ws) :
    ref_secret_count ws mat sel k =
      (if canon_count ws mat sel k = 0 then .error .invariantViolation
       else .ok (canon_count ws mat sel k)) := by
  have hacc : ∀ i ∈ sel, ref_access (wordLen ws) mat k i :=
    fun i hi => kernel_access_ref (matOk_kernel_access hm (hsel i hi).1 (hsel i hi).2 hk)
  unfold ref_secret_count
  rw [merge_hints_ok (wordLen ws) mat k sel (List.replicate (wordLen ws) 0) ∅ hacc
    (by simp) hcard]
  rfl

theorem numba_secret_eq {ws : List Word} {mat : HintMat} {sel : List Int} {k : Nat}
    (hp : PoolOk ws) (hm : MatOk ws.length (wordLen ws) mat)
    (hsel : ∀ i ∈ sel, 0 ≤ i ∧ i < (ws.length : Int)) (hk : k < ws.length) :
    numba_secret_count ws mat sel k = .ok (canon_count ws mat sel k) := by
  have hacc : ∀ i ∈ sel, kernel_access (wordLen ws) mat k i :=
    fun i hi => matOk_kernel_access hm (hsel i hi).1 (hsel i hi).2 hk
  unfold numba_secret_count
  rw [numba_merge_ok (wordLen ws) mat k sel _ _ hacc]
  show Except.ok (mask_compatible_count ws (merged_pos (wordLen ws) mat sel k)
    (merged_mask (wordLen ws) mat sel k)) = _
  exact congrArg Except.ok (counts_mask_eq hp hm hsel hk)

theorem numba_par_secret_eq {ws : List Word} {mat : HintMat} {sel : List Int} {k : Nat}
    (hp : PoolOk ws) (hm : MatOk ws.length (wordLen ws) mat)
    (hsel : ∀ i ∈ sel, 0 ≤ i ∧ i < (ws.length : Int)) (hk : k < ws.length) :
    numba_par_secret_count ws mat sel k = .ok (canon_count ws mat sel k) := by
  have hacc : ∀ i ∈ sel, kernel_access (wordLen ws) mat k i :=
    fun i hi => matOk_kernel_access hm (hsel i hi).1 (hsel i hi).2 hk
  unfold numba_par_secret_count
  rw [numba_merge_ok (wordLen ws) mat k sel _ _ hacc]
  show Except.ok (mask_compatible_count ws (merged_pos (wordLen ws) mat sel k)
    (merged_mask (wordLen ws) mat sel k)) = _
  exact congrArg Except.ok (counts_mask_eq hp hm hsel hk)

theorem opt_secret_eq {ws : List Word} {mat : HintMat} {sel : List Int} {k : Nat}
    (hp : PoolOk ws) (hm : MatOk ws.length (wordLen ws) mat)
    (hsel : ∀ i ∈ sel, 0 ≤ i ∧ i < (ws.length : Int)) (hk : k < ws.length) :
    opt_secret_count ws (wordLen ws) (sel.map (fun i => (npGet mat i).getD [])) k =
      (if canon_count ws mat sel k = 0 then .error .invariantViolation
       else .ok (canon_count ws mat sel k)) := by
  have hcells : (sel.map (fun i => (npGet mat i).getD [])).map
      (fun row => (npGet row (k : Int)).getD []) = sel.map (resolve_cell mat k) := by
    rw [List.map_map]
    apply List.map_congr_left
    intro i hi
    obtain ⟨row, cell, hrow, hcell, _, _, hres⟩ :=
      matOk_cell hm (hsel i hi).1 (hsel i hi).2 hk
    simp only [Function.comp, hrow, Option.getD_some, hcell, hres]
  have hrowsome : ∀ row ∈ sel.map (fun i => (npGet mat i).getD []),
      ∃ cell, npGet row (k : Int) = some cell := by
    intro row hrow
    obtain ⟨i, hi, rfl⟩ := List.mem_map.mp hrow
    obtain ⟨row', cell, hrow', hcell, _, _, _⟩ :=
      matOk_cell hm (hsel i hi).1 (hsel i hi).2 hk
    rw [hrow', Option.getD_some]
    exact ⟨cell, hcell⟩
  have heval : opt_secret_count ws (wordLen ws) (sel.map (fun i => (npGet mat i).getD [])) k =
      if ((sel.map (resolve_cell mat k)).all
          (fun c => (c.take (wordLen ws)).length = (wordLen ws))) then
        (if mask_compatible_count ws (merged_pos (wordLen ws) mat sel k)
            (merged_mask (wordLen ws) mat sel k) = 0 then Except.error Err.invariantViolation
         else Except.ok (mask_compatible_count ws (merged_pos (wordLen ws) mat sel k)
            (merged_mask (wordLen ws) mat sel k)))
      else Except.error Err.broadcastError := by
    unfold opt_secret_count
    rw [np_cells_some k _ hrowsome, hcells]
    rfl
  rw [heval]
  have hguard : ((sel.map (resolve_cell mat k)).all
      (fun c => (c.take (wordLen ws)).length = (wordLen ws))) = true := by
    rw [List.all_eq_true]
    intro c hc
    obtain ⟨i, hi, rfl⟩ := List.mem_map.mp hc
    obtain ⟨row, cell, _, _, hclen, _, hres⟩ :=
      matOk_cell hm (hsel i hi).1 (hsel i hi).2 hk
    rw [hres]
    simp only [List.length_take, hclen, decide_eq_true_eq]
    omega
  rw [if_pos hguard, counts_mask_eq hp hm hsel hk]

end WordleFreq

namespace WordleFreq

theorem getD_zipWith_max {a b : List Nat} {p : Nat} (hpa : p < a.length) (hpb : p < b.length) :
    (List.zipWith max a b).getD p 0 = max (a.getD p 0) (b.getD p 0) := by
  have hpz : p < (List.zipWith max a b).length := by
    rw [List.length_zipWith]
    omega
  rw [getD_eq_getElem_of_lt _ 0 hpz, getD_eq_getElem_of_lt a 0 hpa,
    getD_eq_getElem_of_lt b 0 hpb]
  exact List.getElem_zipWith

theorem foldl_zipmax_length {L : Nat} :
    ∀ (cs : List (List Nat)) (p0 : List Nat), p0.length = L → (∀ c ∈ cs, L ≤ c.length) →
      (cs.foldl (fun p c => List.zipWith max p (c.take L)) p0).length = L
  | [], p0, hp0, _ => hp0
  | c :: rest, p0, hp0, hcs => by
    rw [List.foldl_cons]
    apply foldl_zipmax_length rest
    · rw [List.length_zipWith, hp0, List.length_take]
      have := hcs c (List.mem_cons_self _ _)
      omega
    · exact fun d hd => hcs d (List.mem_cons_of_mem _ hd)

theorem foldl_zipmax_slot {L : Nat} (v : Nat → Nat) :
    ∀ (cs : List (List Nat)) (p0 : List Nat), p0.length = L → (∀ c ∈ cs, L ≤ c.length) →
      (∀ p, p < L → p0.getD p 0 = 0 ∨ p0.getD p 0 = v p) →
      (∀ c ∈ cs, ∀ p, p < L → (c.take L).getD p 0 = 0 ∨ (c.take L).getD p 0 = v p) →
      ∀ p, p < L →
        ((cs.foldl (fun p c => List.zipWith max p (c.take L)) p0).getD p 0 = 0 ∨
         (cs.foldl (fun p c => List.zipWith max p (c.take L)) p0).getD p 0 = v p)
  | [], p0, _, _, hp0s, _, p, hpL => hp0s p hpL
  | c :: rest, p0, hp0, hcs, hp0s, hcss, p, hpL => by
    rw [List.foldl_cons]
    have hclen := hcs c (List.mem_cons_self _ _)
    have hlen1 : (List.zipWith max p0 (c.take L)).length = L := by
      rw [List.length_zipWith, hp0, List.length_take]
      omega
    apply foldl_zipmax_slot v rest _ hlen1 (fun d hd => hcs d (List.mem_cons_of_mem _ hd))
    · intro q hqL
      rw [getD_zipWith_max (by omega) (by rw [List.length_take]; omega)]
      rcases hp0s q hqL with h1 | h1 <;>
        rcases hcss c (List.mem_cons_self _ _) q hqL with h2 | h2 <;>
        rw [h1, h2] <;> simp
    · exact fun d hd => hcss d (List.mem_cons_of_mem _ hd)
    · exact hpL

theorem posPart_getD {a b : Word} {p : Nat} (hpa : p < a.length) (hpb : p < b.length) :
    (posPart a b).getD p 0 = if a.getD p 0 = b.getD p 0 then a.getD p 0 else 0 := by
  have hpz : p < (posPart a b).length := by
    rw [length_posPart]
    omega
  unfold posPart at hpz ⊢
  rw [getD_eq_getElem_of_lt _ 0 hpz, getD_eq_getElem_of_lt a 0 hpa,
    getD_eq_getElem_of_lt b 0 hpb]
  exact List.getElem_zipWith

theorem compatible_positions_of_slots {pos w : List Nat} (hl : pos.length = w.length)
    (hslots : ∀ p, p < w.length → pos.getD p 0 = 0 ∨ pos.getD p 0 = w.getD p 0) :
    compatible_positions pos w = true := by
  unfold compatible_positions
  rw [List.all_eq_true]
  intro x hx
  obtain ⟨p, hp, rfl⟩ := List.getElem_of_mem hx
  have hpw : p < w.length := by
    rw [List.length_zip] at hp
    omega
  have hppos : p < pos.length := by omega
  have hget : (pos.zip w)[p] = (pos[p], w[p]) := List.getElem_zip
  rw [hget]
  rcases hslots p hpw with h | h <;>
    rw [getD_eq_getElem_of_lt pos 0 hppos] at h
  · simp [h]
  · rw [getD_eq_getElem_of_lt w 0 hpw] at h
    simp [h]

theorem built_resolve {ws : List Word} {mat : HintMat} (hp : PoolOk ws)
    (hb : BuiltFrom ws mat) {i : Int} (h0 : 0 ≤ i) (hi : i < (ws.length : Int))
    {k : Nat} (hk : k < ws.length) :
    resolve_cell mat k i = cellAt mat i.toNat k :=
  resolve_cell_cellAt (built_MatOk hp hb) h0 hi hk

theorem built_merged_pos {ws : List Word} {mat : HintMat} (hp : PoolOk ws)
    (hb : BuiltFrom ws mat) {sel : List Int} (hsel : SelOk ws.length sel)
    {k : Nat} (hk : k < ws.length) :
    (merged_pos (wordLen ws) mat sel k).length = wordLen ws ∧
    ∀ p, p < wordLen ws →
      (merged_pos (wordLen ws) mat sel k).getD p 0 = 0 ∨
      (merged_pos (wordLen ws) mat sel k).getD p 0 = (ws.getD k []).getD p 0 := by
  have hlen : ∀ c ∈ sel.map (resolve_cell mat k), wordLen ws ≤ c.length := by
    intro c hc
    obtain ⟨i, hi, rfl⟩ := List.mem_map.mp hc
    obtain ⟨h0, hiN⟩ := hsel i hi
    rw [built_resolve hp hb h0 hiN hk]
    obtain ⟨c', _, hlen2, _, _, _, _, _⟩ := built_cell_facts hp hb (int_toNat_lt h0 hiN) hk
    omega
  have hslots : ∀ c ∈ sel.map (resolve_cell mat k), ∀ p, p < wordLen ws →
      (c.take (wordLen ws)).getD p 0 = 0 ∨
      (c.take (wordLen ws)).getD p 0 = (ws.getD k []).getD p 0 := by
    intro c hc p hpL
    obtain ⟨i, hi, rfl⟩ := List.mem_map.mp hc
    obtain ⟨h0, hiN⟩ := hsel i hi
    rw [built_resolve hp hb h0 hiN hk]
    obtain ⟨c', htake, _, _, _, _, _, _⟩ :=
      built_cell_facts hp hb (int_toNat_lt h0 hiN) hk
    rw [htake]
    rw [posPart_getD (by rw [word_length hp (int_toNat_lt h0 hiN)]; omega)
      (by rw [word_length hp hk]; omega)]
    by_cases heq : (ws.getD i.toNat []).getD p 0 = (ws.getD k []).getD p 0
    · rw [if_pos heq]
      exact Or.inr heq
    · rw [if_neg heq]
      exact Or.inl rfl
  constructor
  · exact foldl_zipmax_length _ _ (List.length_replicate _ _) hlen
  · intro p hpL
    apply foldl_zipmax_slot _ _ _ (List.length_replicate _ _) hlen
    · intro q hq
      left
      rw [List.getD_eq_getElem?_getD]
      simp
    · exact hslots
    · exact hpL

theorem built_merged_letters {ws : List Word} {mat : HintMat} (hp : PoolOk ws)
    (hb : BuiltFrom ws mat) {sel : List Int} (hsel : SelOk ws.length sel)
    {k : Nat} (hk : k < ws.length) :
    merged_letters (wordLen ws) mat sel k ⊆ (ws.getD k []).toFinset ∧
    (merged_letters (wordLen ws) mat sel k).card ≤ wordLen ws := by
  have hsub : merged_letters (wordLen ws) mat sel k ⊆ (ws.getD k []).toFinset := by
    intro x hx
    unfold merged_letters at hx
    rw [mem_foldl_union] at hx
    rcases hx with hx | ⟨c, hc, hx⟩
    · exact absurd hx (Finset.not_mem_empty x)
    · obtain ⟨i, hi, rfl⟩ := List.mem_map.mp hc
      obtain ⟨h0, hiN⟩ := hsel i hi
      rw [built_resolve hp hb h0 hiN hk] at hx
      obtain ⟨c', _, _, _, hfilter, _, hset, _⟩ :=
        built_cell_facts hp hb (int_toNat_lt h0 hiN) hk
      rw [hfilter] at hx
      rw [hset] at hx
      exact List.mem_toFinset.mpr (List.mem_toFinset.mp (Finset.mem_inter.mp hx).2)
  refine ⟨hsub, ?_⟩
  calc (merged_letters (wordLen ws) mat sel k).card
      ≤ (ws.getD k []).toFinset.card := Finset.card_le_card hsub
    _ ≤ (ws.getD k []).length := List.toFinset_card_le _
    _ = wordLen ws := word_length hp hk

theorem canon_count_pos {ws : List Word} {mat : HintMat} (hp : PoolOk ws)
    (hb : BuiltFrom ws mat) {sel : List Int} (hsel : SelOk ws.length sel)
    {k : Nat} (hk : k < ws.length) :
    1 ≤ canon_count ws mat sel k := by
  obtain ⟨hplen, hslots⟩ := built_merged_pos hp hb hsel hk
  obtain ⟨hsub, _⟩ := built_merged_letters hp hb hsel hk
  have hcompat : compatible_positions (merged_pos (wordLen ws) mat sel k) (ws.getD k []) = true := by
    apply compatible_positions_of_slots
    · rw [hplen, word_length hp hk]
    · intro p hpw
      rw [word_length hp hk] at hpw
      exact hslots p hpw
  have hmem : ws.getD k [] ∈ ws.filter (fun w =>
      compatible_positions (merged_pos (wordLen ws) mat sel k) w &&
      decide (merged_letters (wordLen ws) mat sel k ⊆ w.toFinset)) := by
    rw [List.mem_filter]
    refine ⟨word_mem hk, ?_⟩
    rw [hcompat, decide_eq_true hsub]
    rfl
  unfold canon_count ref_compatible_count
  exact List.length_pos.mpr (List.ne_nil_of_mem hmem)

end WordleFreq

namespace WordleFreq

theorem score_replicate {N : Nat} (hN : 1 ≤ N) :
    score N (List.replicate N N) = ((0 : ℝ), (N : ℚ)) := by
  unfold score
  have hN0 : (N : ℝ) ≠ 0 := by
    exact_mod_cast Nat.one_le_iff_ne_zero.mp hN
  have hNq : (N : ℚ) ≠ 0 := by
    exact_mod_cast Nat.one_le_iff_ne_zero.mp hN
  rw [Prod.mk.injEq]
  constructor
  · simp only [List.map_replicate]
    rw [div_self hN0, Real.logb_one, neg_zero, List.sum_replicate, smul_zero, zero_div]
  · simp only [List.map_replicate]
    rw [List.sum_replicate, nsmul_eq_mul]
    field_simp

theorem count_nil_merge (ws : List Word) :
    ref_compatible_count ws (List.replicate (wordLen ws) 0, ∅) = ws.length := by
  unfold ref_compatible_count
  refine congrArg List.length (List.filter_eq_self.mpr ?_)
  intro w hw
  show (compatible_positions (List.replicate (wordLen ws) 0) w &&
    decide ((∅ : Finset Nat) ⊆ w.toFinset)) = true
  have h1 : compatible_positions (List.replicate (wordLen ws) 0) w = true := by
    unfold compatible_positions
    rw [List.all_eq_true]
    intro x hx
    have := List.of_mem_zip hx
    have hx1 : x.1 = 0 := List.eq_of_mem_replicate this.1
    simp [hx1]
  rw [h1]
  simp

theorem canon_count_nil (ws : List Word) (mat : HintMat) (k : Nat) :
    canon_count ws mat [] k = ws.length :=
  count_nil_merge ws

theorem canon_counts_nil (ws : List Word) (mat : HintMat) :
    (List.range ws.length).map (canon_count ws mat []) =
      List.replicate ws.length ws.length := by
  apply List.eq_replicate_iff.mpr
  constructor
  · rw [List.length_map, List.length_range]
  · intro b hb
    obtain ⟨k, _, rfl⟩ := List.mem_map.mp hb
    exact canon_count_nil ws mat k

theorem built_selInt {ws : List Word} {sel : List Int} (hsel : SelOk ws.length sel) :
    ∀ i ∈ sel, 0 ≤ i ∧ i < (ws.length : Int) := hsel

theorem ref_secret_built {ws : List Word} {mat : HintMat} {sel : List Int}
    (hp : PoolOk ws) (hb : BuiltFrom ws mat) (hsel : SelOk ws.length sel)
    {k : Nat} (hk : k < ws.length) :
    ref_secret_count ws mat sel k = .ok (canon_count ws mat sel k) := by
  rw [ref_secret_eq (built_MatOk hp hb) (built_selInt hsel) hk
    (built_merged_letters hp hb hsel hk).2]
  rw [if_neg (by have := canon_count_pos hp hb hsel hk; omega)]

theorem evaluate_ref_built {ws : List Word} {mat : HintMat} {sel : List Int}
    (hp : PoolOk ws) (hb : BuiltFrom ws mat) (hN : 1 ≤ ws.length)
    (hsel : SelOk ws.length sel) :
    evaluate_opening_entropy ws mat sel =
      .ok (score ws.length ((List.range ws.length).map (canon_count ws mat sel))) := by
  unfold evaluate_opening_entropy ref_counts
  rw [except_list_map _ (canon_count ws mat sel)
    (List.range ws.length)
    (fun k hkr => ref_secret_built hp hb hsel (List.mem_range.mp hkr))]
  show (if ws.length = 0 then Except.error Err.zeroDivision
    else Except.ok (score ws.length
      ((List.range ws.length).map (canon_count ws mat sel)))) = _
  rw [if_neg (by omega)]

theorem evaluate_numba_built {ws : List Word} {mat : HintMat} {sel : List Int}
    (hp : PoolOk ws) (hb : BuiltFrom ws mat) (hN : 1 ≤ ws.length)
    (hsel : SelOk ws.length sel) :
    evaluate_opening_entropy_numba ws mat sel =
      .ok (score ws.length ((List.range ws.length).map (canon_count ws mat sel))) := by
  unfold evaluate_opening_entropy_numba
  by_cases hnil : sel = []
  · subst hnil
    rw [if_pos rfl, canon_counts_nil, score_replicate hN]
  · rw [if_neg hnil]
    rw [except_list_map _ (canon_count ws mat sel) (List.range ws.length)
      (fun k hkr => numba_secret_eq hp (built_MatOk hp hb) (built_selInt hsel)
        (List.mem_range.mp hkr))]
    show (if ws.length = 0 then Except.error Err.zeroDivision
      else Except.ok (score ws.length
        ((List.range ws.length).map (canon_count ws mat sel)))) = _
    rw [if_neg (by omega)]

theorem evaluate_numba_par_built {ws : List Word} {mat : HintMat} {sel : List Int}
    (hp : PoolOk ws) (hb : BuiltFrom ws mat) (hN : 1 ≤ ws.length)
    (hsel : SelOk ws.length sel) :
    evaluate_opening_entropy_numba_parallel ws mat sel =
      .ok (score ws.length ((List.range ws.length).map (canon_count ws mat sel))) := by
  unfold evaluate_opening_entropy_numba_parallel
  by_cases hnil : sel = []
  · subst hnil
    rw [if_pos rfl, canon_counts_nil, score_replicate hN]
  · rw [if_neg hnil]
    rw [except_list_map _ (canon_count ws mat sel) (List.range ws.length)
      (fun k hkr => numba_par_secret_eq hp (built_MatOk hp hb) (built_selInt hsel)
        (List.mem_range.mp hkr))]
    show (if ws.length = 0 then Except.error Err.zeroDivision
      else Except.ok (score ws.length
        ((List.range ws.length).map (canon_count ws mat sel)))) = _
    rw [if_neg (by omega)]

theorem evaluate_opt_built {ws : List Word} {mat : HintMat} {sel : List Int}
    (hp : PoolOk ws) (hb : BuiltFrom ws mat) (hN : 1 ≤ ws.length)
    (hsel : SelOk ws.length sel) :
    evaluate_opening_entropy_optimized ws mat sel =
      .ok (score ws.length ((List.range ws.length).map (canon_count ws mat sel))) := by
  unfold evaluate_opening_entropy_optimized
  by_cases hnil : sel = []
  · subst hnil
    rw [if_pos rfl, canon_counts_nil, score_replicate hN]
  · rw [if_neg hnil]
    have hm := built_MatOk hp hb
    have hrows : ∀ i ∈ sel, ∃ row, npGet mat i = some row := by
      intro i hi
      obtain ⟨row, cell, hrow, _, _, _, _⟩ :=
        matOk_cell hm (hsel i hi).1 (hsel i hi).2 (by omega : 0 < ws.length)
      exact ⟨row, hrow⟩
    rw [np_rows_some mat sel hrows]
    show (match except_list
        (opt_secret_count ws (wordLen ws) (sel.map (fun i => (npGet mat i).getD [])))
        (List.range ws.length) with
      | Except.error e => Except.error e
      | Except.ok cs => if ws.length = 0 then Except.error Err.zeroDivision
        else Except.ok (score ws.length cs)) = _
    have hsec : ∀ k ∈ List.range ws.length,
        opt_secret_count ws (wordLen ws) (sel.map (fun i => (npGet mat i).getD [])) k =
          .ok (canon_count ws mat sel k) := by
      intro k hkr
      rw [opt_secret_eq hp hm (built_selInt hsel) (List.mem_range.mp hkr)]
      rw [if_neg (by have := canon_count_pos hp hb hsel (List.mem_range.mp hkr); omega)]
    rw [except_list_map _ (canon_count ws mat sel) (List.range ws.length) hsec]
    show (if ws.length = 0 then Except.error Err.zeroDivision
      else Except.ok (score ws.length
        ((List.range ws.length).map (canon_count ws mat sel)))) = _
    rw [if_neg (by omega)]

end WordleFreq


namespace WordleFreq

theorem zipmax_right_comm :
    ∀ (p a b : List Nat),
      List.zipWith max (List.zipWith max p a) b = List.zipWith max (List.zipWith max p b) a
  | [], _, _ => by simp
  | _ :: _, [], _ => by simp
  | _ :: _, _ :: _, [] => by simp
  | x :: p, y :: a, z :: b => by
    simp only [List.zipWith_cons_cons]
    rw [zipmax_right_comm p a b]
    congr 1
    omega

theorem zipmax_absorb :
    ∀ (p t : List Nat), List.zipWith max (List.zipWith max p t) t = List.zipWith max p t
  | [], _ => by simp
  | _ :: _, [] => by simp
  | x :: p, y :: t => by
    simp only [List.zipWith_cons_cons]
    rw [zipmax_absorb p t]
    congr 1
    omega

theorem ref_step_ok_elim {L : Nat} {mat : HintMat} {k : Nat}
    {st st' : List Nat × Finset Nat} {i : Int}
    (h : ref_merge_step L mat k st i = .ok st') :
    ∃ row cell, npGet mat i = some row ∧ npGet row (k : Int) = some cell ∧
      (cell.take L).length = L ∧
      st' = (List.zipWith max st.1 (cell.take L),
             st.2 ∪ ((cell.drop L).filter (fun x => decide (x ≠ 0))).toFinset) ∧
      (st.2 ∪ ((cell.drop L).filter (fun x => decide (x ≠ 0))).toFinset).card ≤ L := by
  cases hrow : npGet mat i with
  | none =>
    exfalso
    have he : ref_merge_step L mat k st i = .error .indexError := by
      unfold ref_merge_step
      simp only [hrow]
    rw [he] at h
    exact absurd h (by simp)
  | some row =>
    cases hcell : npGet row (k : Int) with
    | none =>
      exfalso
      have he : ref_merge_step L mat k st i = .error .indexError := by
        unfold ref_merge_step
        simp only [hrow, hcell]
      rw [he] at h
      exact absurd h (by simp)
    | some cell =>
      by_cases htake : (cell.take L).length = L
      · by_cases hcard :
            L < (st.2 ∪ ((cell.drop L).filter (fun x => decide (x ≠ 0))).toFinset).card
        · exfalso
          have he : ref_merge_step L mat k st i = .error .broadcastError := by
            unfold ref_merge_step
            simp only [hrow, hcell]
            rw [if_pos htake, if_pos hcard]
          rw [he] at h
          exact absurd h (by simp)
        · have he : ref_merge_step L mat k st i =
              .ok (List.zipWith max st.1 (cell.take L),
                   st.2 ∪ ((cell.drop L).filter (fun x => decide (x ≠ 0))).toFinset) := by
            unfold ref_merge_step
            simp only [hrow, hcell]
            rw [if_pos htake, if_neg hcard]
          rw [he] at h
          exact ⟨row, cell, rfl, hcell, htake, (Except.ok.inj h).symm, Nat.le_of_not_lt hcard⟩
      · exfalso
        have he : ref_merge_step L mat k st i = .error .broadcastError := by
          unfold ref_merge_step
          simp only [hrow, hcell]
          rw [if_neg htake]
        rw [he] at h
        exact absurd h (by simp)

theorem ref_step_ok_intro {L : Nat} {mat : HintMat} {k : Nat}
    {st : List Nat × Finset Nat} {i : Int} {row : List (List Nat)} {cell : List Nat}
    (hrow : npGet mat i = some row) (hcell : npGet row (k : Int) = some cell)
    (htake : (cell.take L).length = L)
    (hcard : (st.2 ∪ ((cell.drop L).filter (fun x => decide (x ≠ 0))).toFinset).card ≤ L) :
    ref_merge_step L mat k st i =
      .ok (List.zipWith max st.1 (cell.take L),
           st.2 ∪ ((cell.drop L).filter (fun x => decide (x ≠ 0))).toFinset) := by
  unfold ref_merge_step
  simp only [hrow, hcell]
  rw [if_pos htake, if_neg (Nat.not_lt.mpr hcard)]

end WordleFreq

namespace WordleFreq

theorem step_absorb_self {L : Nat} {mat : HintMat} {k : Nat}
    {st st' : List Nat × Finset Nat} {i : Int}
    (h : ref_merge_step L mat k st i = .ok st') :
    ref_merge_step L mat k st' i = .ok st' := by
  obtain ⟨row, cell, hrow, hcell, htake, hst', hcard⟩ := ref_step_ok_elim h
  have h2 : st'.2 = st.2 ∪ ((cell.drop L).filter (fun x => decide (x ≠ 0))).toFinset := by
    rw [hst']
  have h1 : st'.1 = List.zipWith max st.1 (cell.take L) := by
    rw [hst']
  have hu : st'.2 ∪ ((cell.drop L).filter (fun x => decide (x ≠ 0))).toFinset = st'.2 := by
    rw [h2, Finset.union_assoc, Finset.union_self]
  rw [ref_step_ok_intro hrow hcell htake (by rw [hu, h2]; exact hcard)]
  rw [hu, h1, zipmax_absorb]
  rw [← h1, Prod.mk.eta]

theorem step_absorb_preserved {L : Nat} {mat : HintMat} {k : Nat}
    {st st2 : List Nat × Finset Nat} {i j : Int}
    (habs : ref_merge_step L mat k st i = .ok st)
    (hstep : ref_merge_step L mat k st j = .ok st2) :
    ref_merge_step L mat k st2 i = .ok st2 := by
  obtain ⟨rowi, celli, hrowi, hcelli, htakei, hsti, hcardi⟩ := ref_step_ok_elim habs
  obtain ⟨rowj, cellj, hrowj, hcellj, htakej, hstj, hcardj⟩ := ref_step_ok_elim hstep
  have hi1 : List.zipWith max st.1 (celli.take L) = st.1 :=
    (congrArg Prod.fst hsti).symm
  have hi2 : st.2 ∪ ((celli.drop L).filter (fun x => decide (x ≠ 0))).toFinset = st.2 :=
    (congrArg Prod.snd hsti).symm
  have hj1 : st2.1 = List.zipWith max st.1 (cellj.take L) := congrArg Prod.fst hstj
  have hj2 : st2.2 = st.2 ∪ ((cellj.drop L).filter (fun x => decide (x ≠ 0))).toFinset :=
    congrArg Prod.snd hstj
  have hu : st2.2 ∪ ((celli.drop L).filter (fun x => decide (x ≠ 0))).toFinset = st2.2 := by
    rw [hj2, Finset.union_right_comm, hi2]
  rw [ref_step_ok_intro hrowi hcelli htakei (by rw [hu, hj2]; exact hcardj)]
  rw [hu]
  have hp : List.zipWith max st2.1 (celli.take L) = st2.1 := by
    rw [hj1, zipmax_right_comm, hi1]
  rw [hp, Prod.mk.eta]

theorem merge_preserves_absorb {L : Nat} {mat : HintMat} {k : Nat} {i : Int} :
    ∀ (sel : List Int) (st st' : List Nat × Finset Nat),
      ref_merge_step L mat k st i = .ok st →
      merge_hints L mat k st sel = .ok st' →
      ref_merge_step L mat k st' i = .ok st'
  | [], st, st', habs, h => by
    have hss : st = st' := Except.ok.inj h
    rw [← hss]
    exact habs
  | j :: rest, st, st', habs, h => by
    unfold merge_hints at h
    cases hstep : ref_merge_step L mat k st j with
    | error e => rw [hstep] at h; exact absurd h (by simp)
    | ok st2 =>
      rw [hstep] at h
      exact merge_preserves_absorb rest st2 st' (step_absorb_preserved habs hstep) h

theorem merge_hints_cons (L : Nat) (mat : HintMat) (k : Nat)
    (st : List Nat × Finset Nat) (i : Int) (rest : List Int) :
    merge_hints L mat k st (i :: rest) =
      (match ref_merge_step L mat k st i with
       | .error e => .error e
       | .ok st2 => merge_hints L mat k st2 rest) := rfl

theorem merge_append {L : Nat} {mat : HintMat} {k : Nat} :
    ∀ (xs ys : List Int) (st : List Nat × Finset Nat),
      merge_hints L mat k st (xs ++ ys) =
        (match merge_hints L mat k st xs with
         | .error e => .error e
         | .ok st2 => merge_hints L mat k st2 ys)
  | [], ys, st => rfl
  | x :: xs, ys, st => by
    rw [List.cons_append, merge_hints_cons, merge_hints_cons]
    cases hstep : ref_merge_step L mat k st x with
    | error e => rfl
    | ok st2 =>
      show merge_hints L mat k st2 (xs ++ ys) =
        (match merge_hints L mat k st2 xs with
         | Except.error e => Except.error e
         | Except.ok st3 => merge_hints L mat k st3 ys)
      exact merge_append xs ys st2

theorem merge_dup {L : Nat} {mat : HintMat} {k : Nat}
    (a b c : List Int) (i : Int) (st : List Nat × Finset Nat) :
    merge_hints L mat k st (a ++ i :: (b ++ i :: c)) =
      merge_hints L mat k st (a ++ i :: (b ++ c)) := by
  rw [merge_append, merge_append]
  cases ha : merge_hints L mat k st a with
  | error e => rfl
  | ok st0 =>
    show merge_hints L mat k st0 (i :: (b ++ i :: c)) =
      merge_hints L mat k st0 (i :: (b ++ c))
    rw [merge_hints_cons, merge_hints_cons]
    cases hstep : ref_merge_step L mat k st0 i with
    | error e => rfl
    | ok st1 =>
      have habs : ref_merge_step L mat k st1 i = .ok st1 := step_absorb_self hstep
      show merge_hints L mat k st1 (b ++ i :: c) = merge_hints L mat k st1 (b ++ c)
      rw [merge_append, merge_append]
      cases hb : merge_hints L mat k st1 b with
      | error e => rfl
      | ok st2 =>
        show merge_hints L mat k st2 (i :: c) = merge_hints L mat k st2 c
        rw [merge_hints_cons, merge_preserves_absorb b st1 st2 habs hb]

theorem except_list_congr (f g : Nat → Except Err Nat) :
    ∀ (ks : List Nat), (∀ k ∈ ks, f k = g k) → except_list f ks = except_list g ks
  | [], _ => rfl
  | k :: rest, hall => by
    unfold except_list
    rw [hall k (List.mem_cons_self _ _),
      except_list_congr f g rest (fun j hj => hall j (List.mem_cons_of_mem _ hj))]

end WordleFreq

namespace WordleFreq

theorem foldP_perm {L : Nat} {mat : HintMat} {k : Nat} {sel sel' : List Int}
    (hperm : sel.Perm sel') (p0 : List Nat) :
    (sel.map (resolve_cell mat k)).foldl (fun p c => List.zipWith max p (c.take L)) p0 =
      (sel'.map (resolve_cell mat k)).foldl (fun p c => List.zipWith max p (c.take L)) p0 :=
  List.Perm.foldl_eq' (hperm.map (resolve_cell mat k))
    (fun x _ y _ z => zipmax_right_comm z (x.take L) (y.take L)) p0

theorem foldU_perm {L : Nat} {mat : HintMat} {k : Nat} {sel sel' : List Int}
    (hperm : sel.Perm sel') (u0 : Finset Nat) :
    (sel.map (resolve_cell mat k)).foldl
        (fun u c => u ∪ ((c.drop L).filter (fun x => decide (x ≠ 0))).toFinset) u0 =
      (sel'.map (resolve_cell mat k)).foldl
        (fun u c => u ∪ ((c.drop L).filter (fun x => decide (x ≠ 0))).toFinset) u0 :=
  List.Perm.foldl_eq' (hperm.map (resolve_cell mat k))
    (fun _ _ _ _ z => Finset.union_right_comm z _ _) u0

theorem merge_hints_perm {L : Nat} {mat : HintMat} {k : Nat} {sel sel' : List Int}
    {p0 : List Nat} {u0 : Finset Nat} {st : List Nat × Finset Nat}
    (hperm : sel.Perm sel') (hu0 : u0.card ≤ L)
    (h : merge_hints L mat k (p0, u0) sel = .ok st) :
    merge_hints L mat k (p0, u0) sel' = .ok st := by
  obtain ⟨hacc, hst, hdisj⟩ := merge_hints_ok_elim L mat k sel p0 u0 st h
  have hacc' : ∀ i ∈ sel', ref_access L mat k i := fun i hi =>
    hacc i (hperm.mem_iff.mpr hi)
  have hfin : ((sel.map (resolve_cell mat k)).foldl
      (fun u c => u ∪ ((c.drop L).filter (fun x => decide (x ≠ 0))).toFinset) u0).card ≤ L := by
    rcases hdisj with hnil | hle
    · rw [hnil]
      simpa using hu0
    · have h2 := congrArg Prod.snd hst
      rw [h2] at hle
      exact hle
  have hfin' := hfin
  rw [foldU_perm hperm u0] at hfin'
  rw [merge_hints_ok L mat k sel' p0 u0 hacc' hu0 hfin']
  rw [← foldU_perm hperm u0, ← foldP_perm hperm p0, ← hst]

theorem ref_secret_perm {ws : List Word} {mat : HintMat} {sel sel' : List Int} {k : Nat}
    {c : Nat} (hperm : sel.Perm sel')
    (h : ref_secret_count ws mat sel k = .ok c) :
    ref_secret_count ws mat sel' k = .ok c := by
  unfold ref_secret_count at h ⊢
  cases hm : merge_hints (wordLen ws) mat k (List.replicate (wordLen ws) 0, ∅) sel with
  | error e => rw [hm] at h; exact absurd h (by simp)
  | ok st =>
    rw [hm] at h
    rw [merge_hints_perm hperm (by simp) hm]
    exact h

theorem except_list_ok_mono (f g : Nat → Except Err Nat) :
    ∀ (ks : List Nat) (cs : List Nat), except_list f ks = .ok cs →
      (∀ k ∈ ks, ∀ c, f k = .ok c → g k = .ok c) →
      except_list g ks = .ok cs
  | [], cs, h, _ => h
  | k :: rest, cs, h, hall => by
    unfold except_list at h ⊢
    cases hfk : f k with
    | error e => rw [hfk] at h; exact absurd h (by simp)
    | ok c =>
      rw [hfk] at h
      cases hrest : except_list f rest with
      | error e => rw [hrest] at h; exact absurd h (by simp)
      | ok cs' =>
        rw [hrest] at h
        rw [hall k (List.mem_cons_self _ _) c hfk,
          except_list_ok_mono f g rest cs' hrest
            (fun j hj => hall j (List.mem_cons_of_mem _ hj))]
        exact h

theorem evaluate_ref_perm {ws : List Word} {mat : HintMat} {sel sel' : List Int}
    {out : ℝ × ℚ} (hperm : sel.Perm sel')
    (h : evaluate_opening_entropy ws mat sel = .ok out) :
    evaluate_opening_entropy ws mat sel' = .ok out := by
  unfold evaluate_opening_entropy ref_counts at h ⊢
  cases hc : except_list (ref_secret_count ws mat sel) (List.range ws.length) with
  | error e => rw [hc] at h; exact absurd h (by simp)
  | ok cs =>
    rw [hc] at h
    rw [except_list_ok_mono (ref_secret_count ws mat sel) (ref_secret_count ws mat sel')
      (List.range ws.length) cs hc (fun k _ c hk => ref_secret_perm hperm hk)]
    exact h

theorem ref_secret_dup (ws : List Word) (mat : HintMat) (k : Nat)
    (a b c : List Int) (i : Int) :
    ref_secret_count ws mat (a ++ i :: (b ++ i :: c)) k =
      ref_secret_count ws mat (a ++ i :: (b ++ c)) k := by
  unfold ref_secret_count
  rw [merge_dup]

theorem evaluate_ref_dup (ws : List Word) (mat : HintMat)
    (a b c : List Int) (i : Int) :
    evaluate_opening_entropy ws mat (a ++ i :: (b ++ i :: c)) =
      evaluate_opening_entropy ws mat (a ++ i :: (b ++ c)) := by
  unfold evaluate_opening_entropy ref_counts
  rw [except_list_congr _ _ (List.range ws.length)
    (fun k _ => ref_secret_dup ws mat k a b c i)]

end WordleFreq

namespace WordleFreq

theorem filter_length_mono {α : Type} (p q : α → Bool) :
    ∀ (l : List α), (∀ a ∈ l, p a = true → q a = true) →
      (l.filter p).length ≤ (l.filter q).length
  | [], _ => Nat.le_refl _
  | x :: xs, hall => by
    have hrec := filter_length_mono p q xs (fun a ha => hall a (List.mem_cons_of_mem _ ha))
    rw [List.filter_cons, List.filter_cons]
    cases hp : p x with
    | true =>
      rw [hall x (List.mem_cons_self _ _) hp]
      simpa using hrec
    | false =>
      cases hq : q x with
      | true => simpa using Nat.le_trans hrec (Nat.le_succ _)
      | false => simpa using hrec

theorem merged_pos_append (L : Nat) (mat : HintMat) (k : Nat) (sel : List Int) (w : Int) :
    merged_pos L mat (sel ++ [w]) k =
      List.zipWith max (merged_pos L mat sel k) ((resolve_cell mat k w).take L) := by
  unfold merged_pos
  rw [List.map_append, List.foldl_append]
  rfl

theorem merged_letters_append (L : Nat) (mat : HintMat) (k : Nat) (sel : List Int) (w : Int) :
    merged_letters L mat (sel ++ [w]) k =
      merged_letters L mat sel k ∪
        (((resolve_cell mat k w).drop L).filter (fun x => decide (x ≠ 0))).toFinset := by
  unfold merged_letters
  rw [List.map_append, List.foldl_append]
  rfl

theorem compatible_positions_elim {pos x : List Nat} (h : compatible_positions pos x = true)
    {p : Nat} (hpp : p < pos.length) (hpx : p < x.length) :
    pos.getD p 0 = 0 ∨ x.getD p 0 = pos.getD p 0 := by
  unfold compatible_positions at h
  rw [List.all_eq_true] at h
  have hpz : p < (pos.zip x).length := by
    rw [List.length_zip]
    omega
  have hx2 := h _ (List.getElem_mem hpz)
  rw [show (pos.zip x)[p] = (pos[p], x[p]) from List.getElem_zip] at hx2
  simp only [Bool.or_eq_true, beq_iff_eq] at hx2
  rw [getD_eq_getElem_of_lt pos 0 hpp, getD_eq_getElem_of_lt x 0 hpx]
  exact hx2

theorem built_resolve_take_length {ws : List Word} {mat : HintMat} (hp : PoolOk ws)
    (hb : BuiltFrom ws mat) {w : Int} (hw0 : 0 ≤ w) (hwN : w < (ws.length : Int))
    {k : Nat} (hk : k < ws.length) :
    ((resolve_cell mat k w).take (wordLen ws)).length = wordLen ws := by
  rw [built_resolve hp hb hw0 hwN hk]
  obtain ⟨c, _, hlen, _, _, _, _, _⟩ := built_cell_facts hp hb (int_toNat_lt hw0 hwN) hk
  rw [List.length_take, hlen]
  omega

theorem merged_pos_le_append {ws : List Word} {mat : HintMat} (hp : PoolOk ws)
    (hb : BuiltFrom ws mat) {sel : List Int} (hsel : SelOk ws.length sel)
    {w : Int} (hw0 : 0 ≤ w) (hwN : w < (ws.length : Int))
    {k : Nat} (hk : k < ws.length) {p : Nat} (hpL : p < wordLen ws) :
    (merged_pos (wordLen ws) mat sel k).getD p 0 ≤
      (merged_pos (wordLen ws) mat (sel ++ [w]) k).getD p 0 := by
  rw [merged_pos_append]
  rw [getD_zipWith_max (by rw [(built_merged_pos hp hb hsel hk).1]; exact hpL)
    (by rw [built_resolve_take_length hp hb hw0 hwN hk]; exact hpL)]
  exact Nat.le_max_left _ _

theorem selOk_append {N : Nat} {sel : List Int} (hsel : SelOk N sel)
    {w : Int} (hw0 : 0 ≤ w) (hwN : w < (N : Int)) : SelOk N (sel ++ [w]) := by
  intro i hi
  rcases List.mem_append.mp hi with h | h
  · exact hsel i h
  · rw [List.mem_singleton] at h
    rw [h]
    exact ⟨hw0, hwN⟩

theorem canon_count_mono {ws : List Word} {mat : HintMat} (hp : PoolOk ws)
    (hb : BuiltFrom ws mat) {sel : List Int} (hsel : SelOk ws.length sel)
    {w : Int} (hw0 : 0 ≤ w) (hwN : w < (ws.length : Int))
    {k : Nat} (hk : k < ws.length) :
    canon_count ws mat (sel ++ [w]) k ≤ canon_count ws mat sel k := by
  have hsel' : SelOk ws.length (sel ++ [w]) := selOk_append hsel hw0 hwN
  unfold canon_count ref_compatible_count
  apply filter_length_mono
  intro x hx hpred
  simp only [Bool.and_eq_true, decide_eq_true_eq] at hpred ⊢
  obtain ⟨hpos', hlet'⟩ := hpred
  refine ⟨?_, ?_⟩
  · apply compatible_positions_of_slots
    · rw [(built_merged_pos hp hb hsel hk).1, (hp x hx).1]
    · intro p hpx
      have hpL : p < wordLen ws := by
        rw [(hp x hx).1] at hpx
        exact hpx
      rcases (built_merged_pos hp hb hsel hk).2 p hpL with h0 | hkp
      · exact Or.inl h0
      · have hle := merged_pos_le_append hp hb hsel hw0 hwN hk hpL
        rcases (built_merged_pos hp hb hsel' hk).2 p hpL with h0' | hkp'
        · left
          omega
        · have helim := compatible_positions_elim hpos'
            (p := p)
            (by rw [(built_merged_pos hp hb hsel' hk).1]; exact hpL)
            (by rw [(hp x hx).1]; exact hpL)
          rcases helim with h0' | hxp
          · left
            omega
          · right
            rw [getD_eq_getElem_of_lt x 0 (by rw [(hp x hx).1]; exact hpL)] at hxp ⊢
            rw [hkp, ← hkp']
            exact hxp.symm
  · refine Finset.Subset.trans ?_ hlet'
    rw [merged_letters_append]
    exact Finset.subset_union_left

end WordleFreq

namespace WordleFreq

theorem score_bits_mono {N : Nat} (hN : 1 ≤ N) (f g : Nat → Nat)
    (hg1 : ∀ k, k < N → 1 ≤ g k) (hgf : ∀ k, k < N → g k ≤ f k) :
    (score N ((List.range N).map f)).1 ≤ (score N ((List.range N).map g)).1 := by
  have hNpos : (0 : ℝ) < (N : ℝ) := by
    have : (0 : Nat) < N := hN
    exact_mod_cast this
  show (((List.range N).map f).map
      (fun (c : Nat) => -Real.logb 2 ((c : ℝ) / (N : ℝ)))).sum / (N : ℝ) ≤
    (((List.range N).map g).map
      (fun (c : Nat) => -Real.logb 2 ((c : ℝ) / (N : ℝ)))).sum / (N : ℝ)
  rw [div_le_div_iff_of_pos_right hNpos, List.map_map, List.map_map]
  apply List.sum_le_sum
  intro k hk
  have hkN := List.mem_range.mp hk
  show -Real.logb 2 ((f k : ℝ) / (N : ℝ)) ≤ -Real.logb 2 ((g k : ℝ) / (N : ℝ))
  apply neg_le_neg
  apply Real.logb_le_logb_of_le one_lt_two
  · apply div_pos _ hNpos
    have : (0 : Nat) < g k := hg1 k hkN
    exact_mod_cast this
  · rw [div_le_div_iff_of_pos_right hNpos]
    exact_mod_cast hgf k hkN

end WordleFreq

namespace WordleFreq

theorem npGet_oob {α : Type} (l : List α) {i : Int}
    (h : i < -(l.length : Int) ∨ (l.length : Int) ≤ i) : npGet l i = none := by
  unfold npGet
  rcases h with h | h
  · rw [if_neg (by omega), if_neg (by omega)]
  · rw [if_pos (by omega)]
    apply List.getElem?_eq_none
    omega

theorem npGet_wrap {α : Type} (l : List α) {i : Int} (hneg : i < 0)
    (hge : -(l.length : Int) ≤ i) : npGet l i = npGet l ((l.length : Int) + i) := by
  unfold npGet
  rw [if_neg (by omega), if_pos hge, if_pos (by omega)]

theorem resolve_cell_wrap {mat : HintMat} (k : Nat) {i : Int} (hneg : i < 0)
    (hge : -(mat.length : Int) ≤ i) :
    resolve_cell mat k i = resolve_cell mat k ((mat.length : Int) + i) := by
  unfold resolve_cell
  rw [npGet_wrap mat hneg hge]

theorem built_access_facts {ws : List Word} {mat : HintMat} (hp : PoolOk ws)
    (hb : BuiltFrom ws mat) {i : Int} (hge : -(ws.length : Int) ≤ i)
    (hlt : i < (ws.length : Int)) {k : Nat} (hk : k < ws.length) :
    ref_access (wordLen ws) mat k i ∧ kernel_access (wordLen ws) mat k i ∧
      (((resolve_cell mat k i).drop (wordLen ws)).filter
        (fun x => decide (x ≠ 0))).toFinset ⊆ (ws.getD k []).toFinset := by
  have hm := built_MatOk hp hb
  have hmain : ∀ j : Int, 0 ≤ j → j < (ws.length : Int) →
      ref_access (wordLen ws) mat k j ∧ kernel_access (wordLen ws) mat k j ∧
      (((resolve_cell mat k j).drop (wordLen ws)).filter
        (fun x => decide (x ≠ 0))).toFinset ⊆ (ws.getD k []).toFinset := by
    intro j h0 hj
    have hker := matOk_kernel_access hm h0 hj hk
    refine ⟨kernel_access_ref hker, hker, ?_⟩
    rw [built_resolve hp hb h0 hj hk]
    obtain ⟨c, _, _, _, hfilter, _, hset, _⟩ :=
      built_cell_facts hp hb (int_toNat_lt h0 hj) hk
    rw [hfilter, hset]
    exact Finset.inter_subset_right
  by_cases h0 : 0 ≤ i
  · exact hmain i h0 hlt
  · have hmat : (mat.length : Int) = (ws.length : Int) := by
      rw [hm.1]
    have hneg : i < 0 := by omega
    have hge' : -(mat.length : Int) ≤ i := by omega
    have hw : npGet mat i = npGet mat ((ws.length : Int) + i) := by
      rw [npGet_wrap mat hneg hge', hmat]
    have hres : resolve_cell mat k i = resolve_cell mat k ((ws.length : Int) + i) := by
      rw [resolve_cell_wrap k hneg hge', hmat]
    obtain ⟨hra, hka, hsubset⟩ := hmain ((ws.length : Int) + i) (by omega) (by omega)
    refine ⟨?_, ?_, ?_⟩
    · unfold ref_access at hra ⊢
      rw [hw]
      exact hra
    · unfold kernel_access at hka ⊢
      rw [hw]
      exact hka
    · rw [hres]
      exact hsubset

theorem oob_cast {mat : HintMat} {N : Nat} (hmat : mat.length = N) {i : Int}
    (h : i < -(N : Int) ∨ (N : Int) ≤ i) :
    i < -(mat.length : Int) ∨ (mat.length : Int) ≤ i := by
  rw [hmat]
  exact h

theorem ref_merge_oob {ws : List Word} {mat : HintMat} (hp : PoolOk ws)
    (hb : BuiltFrom ws mat) {k : Nat} (hk : k < ws.length) {sel : List Int}
    (hbad : ∃ i ∈ sel, i < -(ws.length : Int) ∨ (ws.length : Int) ≤ i) :
    merge_hints (wordLen ws) mat k (List.replicate (wordLen ws) 0, ∅) sel =
      .error .indexError := by
  have hm := built_MatOk hp hb
  have hmat : (mat.length : Int) = (ws.length : Int) := by rw [hm.1]
  apply merge_hints_err (wordLen ws) mat k (ws.getD k []).toFinset
  · calc (ws.getD k []).toFinset.card ≤ (ws.getD k []).length :=
          List.toFinset_card_le (ws.getD k [])
      _ = wordLen ws := word_length hp hk
  · exact Finset.empty_subset _
  · obtain ⟨i, hi, hoob⟩ := hbad
    exact ⟨i, hi, npGet_oob mat (oob_cast hm.1 hoob)⟩
  · intro i hi
    by_cases hoob : i < -(ws.length : Int) ∨ (ws.length : Int) ≤ i
    · exact Or.inl (npGet_oob mat (oob_cast hm.1 hoob))
    · rw [not_or] at hoob
      obtain ⟨hra, _, hsub⟩ := @built_access_facts ws mat hp hb i (by omega) (by omega) k hk
      exact Or.inr ⟨hra, hsub⟩

theorem range_head_succ {N : Nat} (hN : 1 ≤ N) :
    List.range N = 0 :: List.map Nat.succ (List.range (N - 1)) := by
  conv_lhs => rw [show N = (N - 1) + 1 from by omega]
  rw [List.range_succ_eq_map]

theorem evaluate_ref_oob {ws : List Word} {mat : HintMat} {sel : List Int}
    (hp : PoolOk ws) (hb : BuiltFrom ws mat) (hN : 1 ≤ ws.length)
    (hbad : ∃ i ∈ sel, i < -(ws.length : Int) ∨ (ws.length : Int) ≤ i) :
    evaluate_opening_entropy ws mat sel = .error .indexError := by
  have hsec : ref_secret_count ws mat sel 0 = .error .indexError := by
    unfold ref_secret_count
    rw [ref_merge_oob hp hb hN hbad]
  unfold evaluate_opening_entropy ref_counts
  rw [range_head_succ hN, except_list_err_head _ hsec]

theorem evaluate_opt_oob {ws : List Word} {mat : HintMat} {sel : List Int}
    (hp : PoolOk ws) (hb : BuiltFrom ws mat)
    (hbad : ∃ i ∈ sel, i < -(ws.length : Int) ∨ (ws.length : Int) ≤ i) :
    evaluate_opening_entropy_optimized ws mat sel = .error .indexError := by
  have hm := built_MatOk hp hb
  obtain ⟨i0, hi0, hoob0⟩ := hbad
  have hnil : sel ≠ [] := fun h => by
    rw [h] at hi0
    exact absurd hi0 (List.not_mem_nil i0)
  unfold evaluate_opening_entropy_optimized
  rw [if_neg hnil, np_rows_none mat sel ⟨i0, hi0, npGet_oob mat (oob_cast hm.1 hoob0)⟩]

theorem numba_merge_oob {ws : List Word} {mat : HintMat} (hp : PoolOk ws)
    (hb : BuiltFrom ws mat) {k : Nat} (hk : k < ws.length) {sel : List Int}
    (hbad : ∃ i ∈ sel, i < -(ws.length : Int) ∨ (ws.length : Int) ≤ i) :
    numba_merge (wordLen ws) mat k (List.replicate (wordLen ws) 0, 0) sel =
      .error .indexError := by
  have hm := built_MatOk hp hb
  have hmat : (mat.length : Int) = (ws.length : Int) := by rw [hm.1]
  apply numba_merge_err (wordLen ws) mat k sel
  · obtain ⟨i, hi, hoob⟩ := hbad
    exact ⟨i, hi, npGet_oob mat (oob_cast hm.1 hoob)⟩
  · intro i hi
    by_cases hoob : i < -(ws.length : Int) ∨ (ws.length : Int) ≤ i
    · exact Or.inl (npGet_oob mat (oob_cast hm.1 hoob))
    · rw [not_or] at hoob
      exact Or.inr (@built_access_facts ws mat hp hb i (by omega) (by omega) k hk).2.1

theorem evaluate_numba_oob {ws : List Word} {mat : HintMat} {sel : List Int}
    (hp : PoolOk ws) (hb : BuiltFrom ws mat) (hN : 1 ≤ ws.length)
    (hbad : ∃ i ∈ sel, i < -(ws.length : Int) ∨ (ws.length : Int) ≤ i) :
    evaluate_opening_entropy_numba ws mat sel = .error .indexError := by
  obtain ⟨i0, hi0, hoob0⟩ := hbad
  have hnil : sel ≠ [] := fun h => by
    rw [h] at hi0
    exact absurd hi0 (List.not_mem_nil i0)
  have hsec : numba_secret_count ws mat sel 0 = .error .indexError := by
    unfold numba_secret_count
    rw [numba_merge_oob hp hb hN ⟨i0, hi0, hoob0⟩]
  unfold evaluate_opening_entropy_numba
  rw [if_neg hnil, range_head_succ hN, except_list_err_head _ hsec]

theorem evaluate_numba_par_oob {ws : List Word} {mat : HintMat} {sel : List Int}
    (hp : PoolOk ws) (hb : BuiltFrom ws mat) (hN : 1 ≤ ws.length)
    (hbad : ∃ i ∈ sel, i < -(ws.length : Int) ∨ (ws.length : Int) ≤ i) :
    evaluate_opening_entropy_numba_parallel ws mat sel = .error .indexError := by
  obtain ⟨i0, hi0, hoob0⟩ := hbad
  have hnil : sel ≠ [] := fun h => by
    rw [h] at hi0
    exact absurd hi0 (List.not_mem_nil i0)
  have hsec : numba_par_secret_count ws mat sel 0 = .error .indexError := by
    unfold numba_par_secret_count
    rw [numba_merge_oob hp hb hN ⟨i0, hi0, hoob0⟩]
  unfold evaluate_opening_entropy_numba_parallel
  rw [if_neg hnil, range_head_succ hN, except_list_err_head _ hsec]

end WordleFreq

namespace WordleFreq

theorem ref_secret_nil (ws : List Word) (mat : HintMat) (k : Nat) :
    ref_secret_count ws mat [] k =
      (if ws.length = 0 then .error .invariantViolation else .ok ws.length) := by
  unfold ref_secret_count
  show (if ref_compatible_count ws (List.replicate (wordLen ws) 0, ∅) = 0
      then Except.error Err.invariantViolation
      else Except.ok (ref_compatible_count ws (List.replicate (wordLen ws) 0, ∅))) = _
  rw [count_nil_merge]

theorem evaluate_ref_nil {ws : List Word} (mat : HintMat) (hN : 1 ≤ ws.length) :
    evaluate_opening_entropy ws mat [] = .ok ((0 : ℝ), (ws.length : ℚ)) := by
  unfold evaluate_opening_entropy ref_counts
  have hf : ∀ k ∈ List.range ws.length,
      ref_secret_count ws mat [] k = .ok ((fun _ => ws.length) k) := by
    intro k _
    rw [ref_secret_nil, if_neg (by omega)]
  rw [except_list_map _ _ (List.range ws.length) hf]
  show (if ws.length = 0 then Except.error Err.zeroDivision
    else Except.ok (score ws.length
      ((List.range ws.length).map (fun _ => ws.length)))) = _
  rw [if_neg (by omega)]
  have hrep : (List.range ws.length).map (fun _ => ws.length) =
      List.replicate ws.length ws.length := by
    apply List.eq_replicate_iff.mpr
    refine ⟨by rw [List.length_map, List.length_range], ?_⟩
    intro b hb
    obtain ⟨a, _, rfl⟩ := List.mem_map.mp hb
    rfl
  rw [hrep, score_replicate hN]

theorem evaluate_opt_nil (ws : List Word) (mat : HintMat) :
    evaluate_opening_entropy_optimized ws mat [] = .ok ((0 : ℝ), (ws.length : ℚ)) := by
  unfold evaluate_opening_entropy_optimized
  rw [if_pos rfl]

theorem evaluate_numba_nil (ws : List Word) (mat : HintMat) :
    evaluate_opening_entropy_numba ws mat [] = .ok ((0 : ℝ), (ws.length : ℚ)) := by
  unfold evaluate_opening_entropy_numba
  rw [if_pos rfl]

theorem evaluate_numba_par_nil (ws : List Word) (mat : HintMat) :
    evaluate_opening_entropy_numba_parallel ws mat [] = .ok ((0 : ℝ), (ws.length : ℚ)) := by
  unfold evaluate_opening_entropy_numba_parallel
  rw [if_pos rfl]

theorem evaluate_ref_zero_count {ws : List Word} {mat : HintMat} {sel : List Int}
    (hm : MatOk ws.length (wordLen ws) mat)
    (hsel : ∀ i ∈ sel, 0 ≤ i ∧ i < (ws.length : Int))
    (hcard : ∀ k, k < ws.length → (merged_letters (wordLen ws) mat sel k).card ≤ wordLen ws)
    (hzero : ∃ k, k < ws.length ∧ canon_count ws mat sel k = 0) :
    evaluate_opening_entropy ws mat sel = .error .invariantViolation := by
  unfold evaluate_opening_entropy ref_counts
  rw [except_list_checked_err (ref_secret_count ws mat sel) (canon_count ws mat sel)
    (List.range ws.length)
    (fun k hk => ref_secret_eq hm hsel (List.mem_range.mp hk) (hcard k (List.mem_range.mp hk)))
    (by
      obtain ⟨k, hk, h0⟩ := hzero
      exact ⟨k, List.mem_range.mpr hk, h0⟩)]

theorem zero_count_nonnil {ws : List Word} {mat : HintMat} {sel : List Int}
    (hzero : ∃ k, k < ws.length ∧ canon_count ws mat sel k = 0) : sel ≠ [] := by
  intro h
  obtain ⟨k, hk, h0⟩ := hzero
  rw [h, canon_count_nil] at h0
  omega

theorem evaluate_opt_zero_count {ws : List Word} {mat : HintMat} {sel : List Int}
    (hp : PoolOk ws) (hm : MatOk ws.length (wordLen ws) mat)
    (hsel : ∀ i ∈ sel, 0 ≤ i ∧ i < (ws.length : Int))
    (hzero : ∃ k, k < ws.length ∧ canon_count ws mat sel k = 0) :
    evaluate_opening_entropy_optimized ws mat sel = .error .invariantViolation := by
  have hnil := zero_count_nonnil hzero
  have hrows : ∀ i ∈ sel, ∃ row, npGet mat i = some row := by
    intro i hi
    obtain ⟨hlt, heq⟩ := npGet_in_range (hsel i hi).1
      (show i < (mat.length : Int) by rw [hm.1]; exact (hsel i hi).2)
    exact ⟨_, heq⟩
  unfold evaluate_opening_entropy_optimized
  rw [if_neg hnil, np_rows_some mat sel hrows]
  show (match except_list
      (opt_secret_count ws (wordLen ws) (sel.map (fun i => (npGet mat i).getD [])))
      (List.range ws.length) with
    | Except.error e => Except.error e
    | Except.ok cs => if ws.length = 0 then Except.error Err.zeroDivision
      else Except.ok (score ws.length cs)) = Except.error Err.invariantViolation
  rw [except_list_checked_err _ (canon_count ws mat sel) (List.range ws.length)
    (fun k hk => opt_secret_eq hp hm hsel (List.mem_range.mp hk))
    (by
      obtain ⟨k, hk, h0⟩ := hzero
      exact ⟨k, List.mem_range.mpr hk, h0⟩)]

theorem evaluate_numba_zero_ok {ws : List Word} {mat : HintMat} {sel : List Int}
    (hp : PoolOk ws) (hm : MatOk ws.length (wordLen ws) mat)
    (hsel : ∀ i ∈ sel, 0 ≤ i ∧ i < (ws.length : Int))
    (hzero : ∃ k, k < ws.length ∧ canon_count ws mat sel k = 0) :
    evaluate_opening_entropy_numba ws mat sel =
      .ok (score ws.length ((List.range ws.length).map (canon_count ws mat sel))) := by
  have hnil := zero_count_nonnil hzero
  have hN : 1 ≤ ws.length := by
    obtain ⟨k, hk, _⟩ := hzero
    omega
  unfold evaluate_opening_entropy_numba
  rw [if_neg hnil]
  rw [except_list_map _ (canon_count ws mat sel) (List.range ws.length)
    (fun k hkr => numba_secret_eq hp hm hsel (List.mem_range.mp hkr))]
  show (if ws.length = 0 then Except.error Err.zeroDivision
    else Except.ok (score ws.length
      ((List.range ws.length).map (canon_count ws mat sel)))) = _
  rw [if_neg (by omega)]

theorem evaluate_numba_par_zero_ok {ws : List Word} {mat : HintMat} {sel : List Int}
    (hp : PoolOk ws) (hm : MatOk ws.length (wordLen ws) mat)
    (hsel : ∀ i ∈ sel, 0 ≤ i ∧ i < (ws.length : Int))
    (hzero : ∃ k, k < ws.length ∧ canon_count ws mat sel k = 0) :
    evaluate_opening_entropy_numba_parallel ws mat sel =
      .ok (score ws.length ((List.range ws.length).map (canon_count ws mat sel))) := by
  have hnil := zero_count_nonnil hzero
  have hN : 1 ≤ ws.length := by
    obtain ⟨k, hk, _⟩ := hzero
    omega
  unfold evaluate_opening_entropy_numba_parallel
  rw [if_neg hnil]
  rw [except_list_map _ (canon_count ws mat sel) (List.range ws.length)
    (fun k hkr => numba_par_secret_eq hp hm hsel (List.mem_range.mp hkr))]
  show (if ws.length = 0 then Except.error Err.zeroDivision
    else Except.ok (score ws.length
      ((List.range ws.length).map (canon_count ws mat sel)))) = _
  rw [if_neg (by omega)]

end WordleFreq

namespace WordleFreq

theorem if_swap_symm {α : Type} (f : Nat → Nat → α) (a b : Nat) :
    (if a ≤ b then f a b else f b a) = (if b ≤ a then f b a else f a b) := by
  rcases Nat.lt_trichotomy a b with h | h | h
  · rw [if_pos (Nat.le_of_lt h), if_neg (by omega)]
  · rw [h]
  · rw [if_neg (by omega), if_pos (Nat.le_of_lt h)]

/-- C1: for every uppercase pool, any two of the five hint-matrix builders
produce matrices of shape (N, N, 2L) whose position slots [0, L) are
byte-for-byte identical and whose letter slots [L, 2L) hold the identical
set of non-zero letter codes, with at most L non-zero entries. -/
theorem claim_C1_builders_agree {ws : List Word} {mat1 mat2 : HintMat} (hp : PoolOk ws)
    (hb1 : BuiltFrom ws mat1) (hb2 : BuiltFrom ws mat2) :
    MatOk ws.length (wordLen ws) mat1 ∧
    ∀ a b, a < ws.length → b < ws.length →
      (cellAt mat1 a b).take (wordLen ws) = (cellAt mat2 a b).take (wordLen ws) ∧
      (((cellAt mat1 a b).drop (wordLen ws)).filter (fun x => decide (x ≠ 0))).toFinset =
        (((cellAt mat2 a b).drop (wordLen ws)).filter (fun x => decide (x ≠ 0))).toFinset ∧
      (((cellAt mat1 a b).drop (wordLen ws)).filter
        (fun x => decide (x ≠ 0))).length ≤ wordLen ws := by
  refine ⟨built_MatOk hp hb1, ?_⟩
  intro a b ha hbb
  obtain ⟨c1, htake1, _, _, hfilter1, hclen1, hset1, _⟩ := built_cell_facts hp hb1 ha hbb
  obtain ⟨c2, htake2, _, _, hfilter2, hclen2, hset2, _⟩ := built_cell_facts hp hb2 ha hbb
  refine ⟨?_, ?_, ?_⟩
  · rw [htake1, htake2]
  · rw [hfilter1, hfilter2, hset1, hset2]
  · rw [hfilter1]
    exact hclen1

theorem claim_C1_witness :
    MatOk poolCat.length (wordLen poolCat) (compute_cross_hints_matrix poolCat) ∧
    ∀ a b, a < poolCat.length → b < poolCat.length →
      (cellAt (compute_cross_hints_matrix poolCat) a b).take (wordLen poolCat) =
        (cellAt (compute_cross_hints_matrix_numba poolCat) a b).take (wordLen poolCat) ∧
      (((cellAt (compute_cross_hints_matrix poolCat) a b).drop (wordLen poolCat)).filter
          (fun x => decide (x ≠ 0))).toFinset =
        (((cellAt (compute_cross_hints_matrix_numba poolCat) a b).drop
          (wordLen poolCat)).filter (fun x => decide (x ≠ 0))).toFinset ∧
      (((cellAt (compute_cross_hints_matrix poolCat) a b).drop (wordLen poolCat)).filter
        (fun x => decide (x ≠ 0))).length ≤ wordLen poolCat :=
  claim_C1_builders_agree (by unfold PoolOk; decide) (Or.inl rfl)
    (Or.inr (Or.inr (Or.inr (Or.inl rfl))))

/-- C2 (amended): on a non-empty pool, a built matrix and an in-range
selection, the four evaluators return exactly the same pair, so the
relative-tolerance bound holds trivially; the unrestricted claim fails on
the empty pool, where the reference tier divides by zero while the others
short-circuit. -/
theorem claim_C2_tier_equivalence {ws : List Word} {mat : HintMat} {sel : List Int}
    (hp : PoolOk ws) (hb : BuiltFrom ws mat) (hN : 1 ≤ ws.length)
    (hsel : SelOk ws.length sel) :
    evaluate_opening_entropy_optimized ws mat sel = evaluate_opening_entropy ws mat sel ∧
    evaluate_opening_entropy_numba ws mat sel = evaluate_opening_entropy ws mat sel ∧
    evaluate_opening_entropy_numba_parallel ws mat sel =
      evaluate_opening_entropy ws mat sel := by
  rw [evaluate_ref_built hp hb hN hsel, evaluate_opt_built hp hb hN hsel,
    evaluate_numba_built hp hb hN hsel, evaluate_numba_par_built hp hb hN hsel]
  exact ⟨rfl, rfl, rfl⟩

theorem claim_C2_witness :
    evaluate_opening_entropy_optimized poolCat (compute_cross_hints_matrix poolCat) [0] =
      evaluate_opening_entropy poolCat (compute_cross_hints_matrix poolCat) [0] ∧
    evaluate_opening_entropy_numba poolCat (compute_cross_hints_matrix poolCat) [0] =
      evaluate_opening_entropy poolCat (compute_cross_hints_matrix poolCat) [0] ∧
    evaluate_opening_entropy_numba_parallel poolCat
        (compute_cross_hints_matrix poolCat) [0] =
      evaluate_opening_entropy poolCat (compute_cross_hints_matrix poolCat) [0] :=
  claim_C2_tier_equivalence (by unfold PoolOk; decide) (Or.inl rfl) (by decide)
    (by unfold SelOk; decide)

theorem claim_C2_counterexample :
    evaluate_opening_entropy [] (compute_cross_hints_matrix []) [] =
      .error .zeroDivision ∧
    evaluate_opening_entropy_optimized [] (compute_cross_hints_matrix []) [] =
      .ok ((0 : ℝ), (0 : ℚ)) := by
  constructor
  · rfl
  · have h := evaluate_opt_nil [] (compute_cross_hints_matrix [])
    simpa using h

/-- C3: on a non-empty pool, a matrix built by any tier and an in-range
selection, every per-secret compatible count is at least 1 (the secret
itself matches its own merged hint), so the reference evaluator never takes
its zero-probability error branch. -/
theorem claim_C3_count_positive {ws : List Word} {mat : HintMat} {sel : List Int}
    (hp : PoolOk ws) (hbm : BuiltFrom ws mat) (hsel : SelOk ws.length sel) :
    ∀ k, k < ws.length →
      1 ≤ canon_count ws mat sel k ∧
      ref_secret_count ws mat sel k = .ok (canon_count ws mat sel k) :=
  fun _ hk => ⟨canon_count_pos hp hbm hsel hk, ref_secret_built hp hbm hsel hk⟩

theorem claim_C3_witness :
    1 ≤ canon_count poolCat (compute_cross_hints_matrix poolCat) [0] 1 ∧
    ref_secret_count poolCat (compute_cross_hints_matrix poolCat) [0] 1 =
      .ok (canon_count poolCat (compute_cross_hints_matrix poolCat) [0] 1) :=
  claim_C3_count_positive (by unfold PoolOk; decide) (Or.inl rfl) (by unfold SelOk; decide)
    1 (by decide)

/-- C4: whenever the reference evaluator returns a result pair on a
selection, it returns exactly the same pair on every permutation of that
selection (max-merge and set-union merge are commutative and associative). -/
theorem claim_C4_permutation {ws : List Word} {mat : HintMat} {sel sel2 : List Int}
    {out : ℝ × ℚ} (hperm : sel.Perm sel2)
    (h : evaluate_opening_entropy ws mat sel = .ok out) :
    evaluate_opening_entropy ws mat sel2 = .ok out :=
  evaluate_ref_perm hperm h

theorem claim_C4_witness :
    evaluate_opening_entropy poolTwo (compute_cross_hints_matrix poolTwo) [1, 0] =
      .ok (score 2 ((List.range 2).map
        (canon_count poolTwo (compute_cross_hints_matrix poolTwo) [0, 1]))) :=
  claim_C4_permutation (by decide)
    (evaluate_ref_built (by unfold PoolOk; decide) (Or.inl rfl) (by decide)
      (by unfold SelOk; decide))

/-- C5 (amended): on a non-empty pool, every evaluator tier returns exactly
(0.0, N) on the empty selection, for an arbitrary matrix (none of its cells
is consulted); on the empty pool the reference tier instead raises
ZeroDivisionError, refuting the unrestricted claim. -/
theorem claim_C5_empty_selection {ws : List Word} (mat : HintMat) (hN : 1 ≤ ws.length) :
    evaluate_opening_entropy ws mat [] = .ok ((0 : ℝ), (ws.length : ℚ)) ∧
    evaluate_opening_entropy_optimized ws mat [] = .ok ((0 : ℝ), (ws.length : ℚ)) ∧
    evaluate_opening_entropy_numba ws mat [] = .ok ((0 : ℝ), (ws.length : ℚ)) ∧
    evaluate_opening_entropy_numba_parallel ws mat [] = .ok ((0 : ℝ), (ws.length : ℚ)) :=
  ⟨evaluate_ref_nil mat hN, evaluate_opt_nil ws mat, evaluate_numba_nil ws mat,
   evaluate_numba_par_nil ws mat⟩

theorem claim_C5_witness :
    evaluate_opening_entropy poolCat [] [] = .ok ((0 : ℝ), (poolCat.length : ℚ)) ∧
    evaluate_opening_entropy_optimized poolCat [] [] =
      .ok ((0 : ℝ), (poolCat.length : ℚ)) ∧
    evaluate_opening_entropy_numba poolCat [] [] = .ok ((0 : ℝ), (poolCat.length : ℚ)) ∧
    evaluate_opening_entropy_numba_parallel poolCat [] [] =
      .ok ((0 : ℝ), (poolCat.length : ℚ)) :=
  claim_C5_empty_selection [] (by decide)

theorem claim_C5_counterexample :
    evaluate_opening_entropy [] [] [] = .error .zeroDivision := rfl

/-- C6: every matrix built by any of the five tiers is symmetric: the full
2L-slot cell at (i, j) equals the cell at (j, i). -/
theorem claim_C6_symmetry {ws : List Word} {mat : HintMat} (hp : PoolOk ws)
    (hbm : BuiltFrom ws mat) {a b : Nat} (ha : a < ws.length) (hbb : b < ws.length) :
    cellAt mat a b = cellAt mat b a := by
  rcases hbm with h | h | h | h | h <;> rw [h]
  · rw [naive_cellAt ws ha hbb, naive_cellAt ws hbb ha, if_swap_symm (cell_naive ws)]
  · rw [opt_cellAt hp ha hbb, opt_cellAt hp hbb ha, if_swap_symm (cell_naive ws)]
  · rw [fast_cellAt hp ha hbb, fast_cellAt hp hbb ha, if_swap_symm (cell_naive ws)]
  · rw [numba_cellAt ws ha hbb, numba_cellAt ws hbb ha, if_swap_symm (cell_scan ws)]
  · rw [numba_parallel_cellAt ws ha hbb, numba_parallel_cellAt ws hbb ha,
      if_swap_symm (cell_scan ws)]

theorem claim_C6_witness :
    cellAt (compute_cross_hints_matrix_optimized poolCat) 0 2 =
      cellAt (compute_cross_hints_matrix_optimized poolCat) 2 0 :=
  claim_C6_symmetry (by unfold PoolOk; decide) (Or.inr (Or.inl rfl)) (by decide) (by decide)

/-- C7: on a non-empty pool with a built matrix, extending a non-empty
in-range selection by one further in-range opening index never decreases
the expected_bits returned by the reference evaluator. -/
theorem claim_C7_bits_monotone {ws : List Word} {mat : HintMat} {sel : List Int}
    {w : Int} (hp : PoolOk ws) (hbm : BuiltFrom ws mat) (hN : 1 ≤ ws.length)
    (hsel : SelOk ws.length sel) ( _hne : sel ≠ []) (hw0 : 0 ≤ w)
    (hwN : w < (ws.length : Int)) ( _hnotin : w ∉ sel) :
    ∃ out out2,
      evaluate_opening_entropy ws mat sel = .ok out ∧
      evaluate_opening_entropy ws mat (sel ++ [w]) = .ok out2 ∧
      out.1 ≤ out2.1 := by
  have hsel2 := selOk_append hsel hw0 hwN
  refine ⟨_, _, evaluate_ref_built hp hbm hN hsel, evaluate_ref_built hp hbm hN hsel2, ?_⟩
  exact score_bits_mono hN (canon_count ws mat sel) (canon_count ws mat (sel ++ [w]))
    (fun k hk => canon_count_pos hp hbm hsel2 hk)
    (fun k hk => canon_count_mono hp hbm hsel hw0 hwN hk)

theorem claim_C7_witness :
    ∃ out out2,
      evaluate_opening_entropy poolTwo (compute_cross_hints_matrix poolTwo) [0] =
        .ok out ∧
      evaluate_opening_entropy poolTwo (compute_cross_hints_matrix poolTwo)
        ([0] ++ [1]) = .ok out2 ∧
      out.1 ≤ out2.1 :=
  claim_C7_bits_monotone (by unfold PoolOk; decide) (Or.inl rfl) (by decide)
    (by unfold SelOk; decide) (by decide) (by decide) (by decide) (by decide)

/-- C8 (amended): on an in-range selection over a shape-correct (possibly
tampered) matrix for which some secret has compatible count 0, the
reference and optimized evaluators raise the invariant-violation error, but
the two numba kernels skip the zero-count check and return a score whose
zero count feeds log2(0); the unrestricted all-tiers claim fails. -/
theorem claim_C8_zero_count {ws : List Word} {mat : HintMat} {sel : List Int}
    (hp : PoolOk ws) (hm : MatOk ws.length (wordLen ws) mat)
    (hsel : ∀ i ∈ sel, 0 ≤ i ∧ i < (ws.length : Int))
    (hcard : ∀ k, k < ws.length → (merged_letters (wordLen ws) mat sel k).card ≤ wordLen ws)
    (hzero : ∃ k, k < ws.length ∧ canon_count ws mat sel k = 0) :
    evaluate_opening_entropy ws mat sel = .error .invariantViolation ∧
    evaluate_opening_entropy_optimized ws mat sel = .error .invariantViolation ∧
    evaluate_opening_entropy_numba ws mat sel =
      .ok (score ws.length ((List.range ws.length).map (canon_count ws mat sel))) ∧
    evaluate_opening_entropy_numba_parallel ws mat sel =
      .ok (score ws.length ((List.range ws.length).map (canon_count ws mat sel))) :=
  ⟨evaluate_ref_zero_count hm hsel hcard hzero,
   evaluate_opt_zero_count hp hm hsel hzero,
   evaluate_numba_zero_ok hp hm hsel hzero,
   evaluate_numba_par_zero_ok hp hm hsel hzero⟩

theorem claim_C8_witness :
    evaluate_opening_entropy [[65]] [[[90, 0]]] [0] = .error .invariantViolation ∧
    evaluate_opening_entropy_optimized [[65]] [[[90, 0]]] [0] =
      .error .invariantViolation ∧
    evaluate_opening_entropy_numba [[65]] [[[90, 0]]] [0] =
      .ok (score ([[65]] : List Word).length
        ((List.range ([[65]] : List Word).length).map
          (canon_count [[65]] [[[90, 0]]] [0]))) ∧
    evaluate_opening_entropy_numba_parallel [[65]] [[[90, 0]]] [0] =
      .ok (score ([[65]] : List Word).length
        ((List.range ([[65]] : List Word).length).map
          (canon_count [[65]] [[[90, 0]]] [0]))) :=
  claim_C8_zero_count (by unfold PoolOk; decide) (by unfold MatOk; decide) (by decide)
    (by decide) (by decide)

theorem claim_C8_counterexample :
    evaluate_opening_entropy [[65]] [[[90, 0]]] [0] = .error .invariantViolation ∧
    evaluate_opening_entropy_numba [[65]] [[[90, 0]]] [0] = .ok (score 1 [0]) := by
  constructor
  · unfold evaluate_opening_entropy
    rw [show ref_counts [[65]] [[[90, 0]]] [0] =
      Except.error Err.invariantViolation from by decide]
  · unfold evaluate_opening_entropy_numba
    rw [if_neg (show ([0] : List Int) ≠ [] from by decide)]
    rw [show except_list (numba_secret_count [[65]] [[[90, 0]]] [0])
      (List.range ([[65]] : List Word).length) = Except.ok [0] from by decide]
    show (if ([[65]] : List Word).length = 0 then Except.error Err.zeroDivision
      else Except.ok (score ([[65]] : List Word).length [0])) = _
    rw [if_neg (by decide)]
    rfl

/-- C9 (amended): an opening index outside [-N, N) makes all four evaluator
tiers return the index error on a built matrix of a non-empty pool; indices
in [-N, 0), although outside the claimed [0, N), are accepted and alias
index N + i under numpy indexing, refuting the unrestricted claim. -/
theorem claim_C9_out_of_range {ws : List Word} {mat : HintMat} {sel : List Int}
    (hp : PoolOk ws) (hbm : BuiltFrom ws mat) (hN : 1 ≤ ws.length)
    (hbad : ∃ i ∈ sel, i < -(ws.length : Int) ∨ (ws.length : Int) ≤ i) :
    evaluate_opening_entropy ws mat sel = .error .indexError ∧
    evaluate_opening_entropy_optimized ws mat sel = .error .indexError ∧
    evaluate_opening_entropy_numba ws mat sel = .error .indexError ∧
    evaluate_opening_entropy_numba_parallel ws mat sel = .error .indexError :=
  ⟨evaluate_ref_oob hp hbm hN hbad, evaluate_opt_oob hp hbm hbad,
   evaluate_numba_oob hp hbm hN hbad, evaluate_numba_par_oob hp hbm hN hbad⟩

theorem claim_C9_witness :
    evaluate_opening_entropy poolTwo (compute_cross_hints_matrix poolTwo) [5] =
      .error .indexError ∧
    evaluate_opening_entropy_optimized poolTwo (compute_cross_hints_matrix poolTwo) [5] =
      .error .indexError ∧
    evaluate_opening_entropy_numba poolTwo (compute_cross_hints_matrix poolTwo) [5] =
      .error .indexError ∧
    evaluate_opening_entropy_numba_parallel poolTwo
        (compute_cross_hints_matrix poolTwo) [5] = .error .indexError :=
  claim_C9_out_of_range (by unfold PoolOk; decide) (Or.inl rfl) (by decide) (by decide)

theorem claim_C9_counterexample :
    evaluate_opening_entropy poolTwo (compute_cross_hints_matrix_numba poolTwo) [-1] =
      .ok (score 2 [2, 1]) := by
  unfold evaluate_opening_entropy
  rw [show ref_counts poolTwo (compute_cross_hints_matrix_numba poolTwo) [-1] =
    Except.ok [2, 1] from by decide]
  show (if poolTwo.length = 0 then Except.error Err.zeroDivision
    else Except.ok (score poolTwo.length [2, 1])) = _
  rw [if_neg (by decide)]
  rfl

/-- C10: duplicating an index already present in the selection never
changes the reference evaluator result, because one more merge of the same
cell is absorbed by the elementwise max and the set union. -/
theorem claim_C10_duplicate (ws : List Word) (mat : HintMat) (a b c : List Int)
    (i : Int) :
    evaluate_opening_entropy ws mat (a ++ i :: (b ++ i :: c)) =
      evaluate_opening_entropy ws mat (a ++ i :: (b ++ c)) :=
  evaluate_ref_dup ws mat a b c i

end WordleFreq
